import Mathlib

/-!
# JSHelper: the formatting helpers of `Helper.js`

A shallow embedding of `Helper.formatCurrency`, `Helper.formatDatetimeString`, `Helper.lpad`,
`Helper.rpad`, `Helper.pluralise`, `Helper.ordinalSuffix` and `Helper.chunk` (src/Helper.js)
together with the platform operations they call.

Conventions of the embedding.

* A JavaScript string is a `List Char`.  The operations modelled here treat the characters of
  a string one by one and only ever test them against characters of the Basic Multilingual
  Plane, so code points and UTF-16 code units behave alike; where the code measures an
  arbitrary string (`lpad`, `rpad`), its `length` is counted in code units by `jsLength`.
* A JavaScript Number is a `JSNumber`: `NaN`, `+Infinity`, or a finite non-negative binary64
  value kept as an exact fraction `num / den` whose denominator is a power of two.  No negative
  number can arise in the modelled code: the only Number that `formatCurrency` creates comes
  from `parseFloat` of a text without a sign, and `ordinalSuffix` is modelled on the value of a
  non-negative integral Number.  Rounding to binary64 is computed exactly on natural numbers.
* The `Date` object built by `new Date(datetime_string)` is a `JSDate`: either the invalid date
  or a record of local calendar fields.  The date parser of the platform is a parameter of
  `formatDatetimeString`.
-/

namespace JSHelper

set_option maxRecDepth 100000
set_option exponentiation.threshold 2000

/-! ## Platform: binary64 numbers -/

/-- A JavaScript Number restricted to the values the modelled code can produce. -/
inductive JSNumber where
  | nan : JSNumber
  | infinity : JSNumber
  | finite (num den : Nat) : JSNumber
  deriving DecidableEq

/-- Index of the highest set bit of `n` (`0` for `n ≤ 1`); `fuel ≥ n` is always enough. -/
def floorLog2 : Nat → Nat → Nat
  | 0, _ => 0
  | fuel + 1, n => if n < 2 then 0 else floorLog2 fuel (n / 2) + 1

/-- The integer nearest to `N / D`, a tie going to the even neighbour. -/
def roundTiesToEven (N D : Nat) : Nat :=
  let q := N / D
  let r := N % D
  if 2 * r < D then q
  else if D < 2 * r then q + 1
  else if q % 2 = 0 then q else q + 1

/-- The binary64 value nearest to the real number `N / D` (`D > 0`), ties to even: what the
platform produces when it converts a decimal numeral to a Number.  A value with binary exponent
`e ≥ 52` is rounded to a multiple of `2 ^ (e - 52)`; a smaller one to a multiple of
`2 ^ (-j)` with `j = min (52 - e) 1074` (the subnormal quantum is `2 ^ (-1074)`); a rounded
magnitude of `2 ^ 1024` or more is `Infinity`. -/
def toDouble (N D : Nat) : JSNumber :=
  if D * 2 ^ 52 ≤ N then
    let p := floorLog2 (N / D) (N / D) - 52
    let M := roundTiesToEven N (D * 2 ^ p)
    if 2 ^ 1024 ≤ M * 2 ^ p then JSNumber.infinity else JSNumber.finite (M * 2 ^ p) 1
  else
    let w := N * 2 ^ 1074 / D
    let j := 1074 - (floorLog2 w w - 52)
    JSNumber.finite (roundTiesToEven (N * 2 ^ j) D) (2 ^ j)

/-- Equality of Number values (never true of `NaN`), on the fractions. -/
def JSNumber.sameValue : JSNumber → JSNumber → Bool
  | JSNumber.infinity, JSNumber.infinity => true
  | JSNumber.finite a b, JSNumber.finite c d => a * d == c * b
  | _, _ => false

/-! ## Platform: strings and numerals -/

/-- The value of a run of decimal digits, most significant first. -/
def digitsValue (ds : List Char) : Nat :=
  ds.foldl (fun acc c => 10 * acc + (c.toNat - 48)) 0

/-- The decimal digits of `n` with no leading zero (`"0"` for zero). -/
def decimalDigits (n : Nat) : List Char := Nat.toDigits 10 n

/-- The call `parseFloat(s)` for a text `s` made of decimal digits and `'.'`: the longest prefix
of the form `digits`, `digits.`, `digits.digits` or `.digits` is converted, the rest is ignored,
and the result is `NaN` when that prefix holds no digit.  (Leading white space, a sign, an
exponent part and the word `Infinity`, which `parseFloat` also accepts, need characters that
`formatCurrency` has removed before the call.) -/
def parseFloat (s : List Char) : JSNumber :=
  let ip := s.takeWhile Char.isDigit
  let rest := s.dropWhile Char.isDigit
  let fp := match rest with
    | '.' :: t => t.takeWhile Char.isDigit
    | _ => []
  if ip = [] ∧ fp = [] then JSNumber.nan
  else toDouble (digitsValue (ip ++ fp)) (10 ^ fp.length)

/-- Search of `Number::toString` for the shortest digit string: `X` is an integral Number value
with `D` decimal digits; for `k = D - fuel, ...` it looks for a `k`-digit integer `s` and `n`
with `s * 10 ^ (n - k)` converting back to `X`, and takes the one nearest to `X` (the even one
on a tie).  Returns `(s, k, n)`. -/
def shortestDigits (X D : Nat) : Nat → Nat × Nat × Nat
  | 0 => (X, D, D)
  | fuel + 1 =>
    let k := D - (fuel + 1)
    let u := 10 ^ (D - k)
    let s0 := X / u
    let ok0 := (toDouble (s0 * u) 1).sameValue (JSNumber.finite X 1)
    let ok1 := (toDouble ((s0 + 1) * u) 1).sameValue (JSNumber.finite X 1)
    let up : Nat × Nat × Nat :=
      if s0 + 1 < 10 ^ k then (s0 + 1, k, D) else (10 ^ (k - 1), k, D + 1)
    let d0 := X - s0 * u
    let d1 := (s0 + 1) * u - X
    if k = 0 then shortestDigits X D fuel
    else if ok0 ∧ ok1 then
      (if d0 < d1 then (s0, k, D)
       else if d1 < d0 then up
       else if s0 % 2 = 0 then (s0, k, D) else up)
    else if ok0 then (s0, k, D)
    else if ok1 then up
    else shortestDigits X D fuel

/-- The call `Number::toString(x)` for an integral Number value `X ≥ 10 ^ 21`: exponential
notation `d.ddd…e+N` over the shortest digits that convert back to `X`. -/
def numberToStringLarge (X : Nat) : List Char :=
  let D := (decimalDigits X).length
  let (s, k, n) := shortestDigits X D D
  let ds := decimalDigits s
  if k = 1 then ds ++ ['e', '+'] ++ decimalDigits (n - 1)
  else ds.take 1 ++ ['.'] ++ ds.drop 1 ++ ['e', '+'] ++ decimalDigits (n - 1)

/-- The method `Number.prototype.toFixed(f)` for `f ≤ 100` on the Number `x`. -/
def toFixed (x : JSNumber) (f : Nat) : List Char :=
  match x with
  | JSNumber.nan => "NaN".toList
  | JSNumber.infinity => "Infinity".toList
  | JSNumber.finite num den =>
    if 10 ^ 21 * den ≤ num then numberToStringLarge (num / den)
    else
      -- the integer `n` with `n / 10 ^ f` nearest to `x`, the larger one on a tie
      let n := (2 * 10 ^ f * num + den) / (2 * den)
      let m := if n = 0 then ['0'] else decimalDigits n
      if f = 0 then m
      else
        let k := m.length
        let m1 := if k ≤ f then List.replicate (f + 1 - k) '0' ++ m else m
        let k1 := if k ≤ f then f + 1 else k
        m1.take (k1 - f) ++ ['.'] ++ m1.drop (k1 - f)

/-- Recogniser of an optional exponent part followed by the end of the text. -/
def isExponentTail (s : List Char) : Bool :=
  match s with
  | [] => true
  | c :: t =>
    if c = 'e' ∨ c = 'E' then
      let u := match t with
        | '+' :: v => v
        | '-' :: v => v
        | _ => t
      !u.isEmpty && u.all Char.isDigit
    else false

/-- Recogniser of the decimal texts that `ToNumber` converts to a Number other than `NaN`: the
empty text, or an optional sign followed by `Infinity` or by a decimal numeral with an optional
exponent.  (White space around the numeral and the `0x`, `0o`, `0b` forms, which `ToNumber`
also accepts, do not occur in a result of `toFixed`.) -/
def isNumericText (s : List Char) : Bool :=
  let body := match s with
    | '+' :: t => t
    | '-' :: t => t
    | _ => s
  if s = [] then true
  else if body = "Infinity".toList then true
  else
    let ip := body.takeWhile Char.isDigit
    let rest := body.dropWhile Char.isDigit
    match rest with
    | '.' :: t =>
      let fp := t.takeWhile Char.isDigit
      !(ip.isEmpty && fp.isEmpty) && isExponentTail (t.dropWhile Char.isDigit)
    | _ => !ip.isEmpty && isExponentTail rest

/-- The global `isNaN(v)` applied to a string: true when `ToNumber(v)` is `NaN`. -/
def isNaN (s : List Char) : Bool := !isNumericText s

/-- The method `String.prototype.split('.')`. -/
def splitDot : List Char → List (List Char)
  | [] => [[]]
  | c :: t =>
    match splitDot t with
    | [] => [[]]
    | seg :: segs => if c = '.' then [] :: seg :: segs else (c :: seg) :: segs

/-- The method `Array.prototype.join(sep)` on an array of strings. -/
def join (sep : List Char) : List (List Char) → List Char
  | [] => []
  | [a] => a
  | a :: b :: rest => a ++ sep ++ join sep (b :: rest)

/-- The method `padStart(targetLength, fill)` with a one-character `fill`, on a text of ASCII
characters (each one code unit). -/
def padStart (s : List Char) (targetLength : Nat) (fill : Char) : List Char :=
  if targetLength ≤ s.length then s else List.replicate (targetLength - s.length) fill ++ s

/-- The method `slice(-2)` on a text of ASCII characters: the last two characters, or the
whole of a shorter string. -/
def sliceLastTwo (s : List Char) : List Char := s.drop (s.length - 2)

/-! ## Platform: dates -/

/-- The local calendar fields of a valid `Date`, as its getters return them: `month` is
`getMonth()` (January is `0`), `date` is `getDate()` (the day of the month). -/
structure DateFields where
  fullYear : Int
  month : Nat
  date : Nat
  hours : Nat
  minutes : Nat
  seconds : Nat
  deriving DecidableEq

/-- The ranges in which the getters of a valid `Date` answer. -/
def DateFields.InRange (f : DateFields) : Prop :=
  f.month ≤ 11 ∧ 1 ≤ f.date ∧ f.date ≤ 31 ∧ f.hours ≤ 23 ∧ f.minutes ≤ 59 ∧ f.seconds ≤ 59

/-- The object `new Date(datetime_string)`: the invalid date when the text cannot be parsed. -/
inductive JSDate where
  | invalid : JSDate
  | valid (f : DateFields) : JSDate
  deriving DecidableEq

/-- The getter `getFullYear()`; `none` is `NaN`, the answer of every getter of the invalid
date. -/
def JSDate.getFullYear : JSDate → Option Int
  | JSDate.invalid => none
  | JSDate.valid f => some f.fullYear

/-- The getter `getMonth()`. -/
def JSDate.getMonth : JSDate → Option Nat
  | JSDate.invalid => none
  | JSDate.valid f => some f.month

/-- The getter `getDate()`. -/
def JSDate.getDate : JSDate → Option Nat
  | JSDate.invalid => none
  | JSDate.valid f => some f.date

/-- The getter `getHours()`. -/
def JSDate.getHours : JSDate → Option Nat
  | JSDate.invalid => none
  | JSDate.valid f => some f.hours

/-- The getter `getMinutes()`. -/
def JSDate.getMinutes : JSDate → Option Nat
  | JSDate.invalid => none
  | JSDate.valid f => some f.minutes

/-- The getter `getSeconds()`. -/
def JSDate.getSeconds : JSDate → Option Nat
  | JSDate.invalid => none
  | JSDate.valid f => some f.seconds

/-- The string form of a non-negative integral Number or of `NaN` (`toString()`, or the
conversion made by `+=` on a string). -/
def numberText : Option Nat → List Char
  | none => "NaN".toList
  | some n => decimalDigits n

/-- The string form of an integral Number or of `NaN`. -/
def integerText : Option Int → List Char
  | none => "NaN".toList
  | some i => if i < 0 then '-' :: decimalDigits i.natAbs else decimalDigits i.toNat

/-- The expression `x + 1` on a getter result. -/
def plusOne : Option Nat → Option Nat
  | none => none
  | some n => some (n + 1)

/-- The expression `x % 12 || 12`: `NaN % 12` is `NaN`, and `NaN` and `0` are both falsy. -/
def modTwelveOrTwelve : Option Nat → Nat
  | none => 12
  | some h => if h % 12 = 0 then 12 else h % 12

/-- The expression `x < 12`, false on `NaN`. -/
def lessThanTwelve : Option Nat → Bool
  | none => false
  | some h => h < 12

/-- The string appended by `+=` for the element `names[x]`: `undefined` when `x` is `NaN` or
not an index of the array. -/
def elementText (names : List String) : Option Nat → List Char
  | none => "undefined".toList
  | some i =>
    match names.get? i with
    | some name => name.toList
    | none => "undefined".toList

/-! ## `Helper.formatDatetimeString` -/

/-- The array of abbreviated month names (Helper.js line 219). -/
def shortMonthNames : List String :=
  ["Jan", "Feb", "Mar", "Apr", "May", "Jun", "Jul", "Aug", "Sep", "Oct", "Nov", "Dec"]

/-- The array of full month names (Helper.js line 220). -/
def fullMonthNames : List String :=
  ["January", "February", "March", "April", "May", "June", "July", "August", "September",
    "October", "November", "December"]

/-- The object `formatMap` (Helper.js lines 204-221): `some v` when the one-character string
`c` is an own property, with `v` the string that `result += formatMap[c]` appends. -/
def formatMap (date : JSDate) (c : Char) : Option (List Char) :=
  if c = 'd' then some (padStart (numberText date.getDate) 2 '0')
  else if c = 'm' then some (padStart (numberText (plusOne date.getMonth)) 2 '0')
  else if c = 'Y' then some (integerText date.getFullYear)
  else if c = 'H' then some (padStart (numberText date.getHours) 2 '0')
  else if c = 'h' then
    some (padStart (decimalDigits (modTwelveOrTwelve date.getHours)) 2 '0')
  else if c = 'i' then some (padStart (numberText date.getMinutes) 2 '0')
  else if c = 's' then some (padStart (numberText date.getSeconds) 2 '0')
  else if c = 'j' then some (numberText date.getDate)
  else if c = 'n' then some (numberText (plusOne date.getMonth))
  else if c = 'y' then some (sliceLastTwo (integerText date.getFullYear))
  else if c = 'G' then some (numberText date.getHours)
  else if c = 'g' then some (decimalDigits (modTwelveOrTwelve date.getHours))
  else if c = 'A' then some (if lessThanTwelve date.getHours then "AM".toList else "PM".toList)
  else if c = 'a' then some (if lessThanTwelve date.getHours then "am".toList else "pm".toList)
  else if c = 'M' then some (elementText shortMonthNames date.getMonth)
  else if c = 'F' then some (elementText fullMonthNames date.getMonth)
  else none

/-- The loop of `formatDatetimeString` (Helper.js lines 226-238) from position `i` on, with the
current `result` and `inBrackets`; it returns the final `result`. -/
def formatLoop (map : Char → Option (List Char)) :
    List Char → List Char → Bool → List Char
  | [], result, _ => result
  | c :: rest, result, inBrackets =>
    if c = '[' then formatLoop map rest result true
    else if c = ']' then formatLoop map rest result false
    else if inBrackets then formatLoop map rest (result ++ [c]) inBrackets
    else
      match map c with
      | some v => formatLoop map rest (result ++ v) inBrackets
      | none => formatLoop map rest (result ++ [c]) inBrackets

/-- The function `Helper.formatDatetimeString(datetime_string, desired_format)`; `newDate` is
the platform's `new Date(...)` on a string. -/
def formatDatetimeString (newDate : List Char → JSDate)
    (datetime_string desired_format : List Char) : List Char :=
  let date := newDate datetime_string
  formatLoop (formatMap date) desired_format [] false

/-! ## `Helper.formatCurrency` -/

/-- The statement `value = value.replace(/[^\d.]/g, '')`. -/
def stripNonNumeric (value : List Char) : List Char :=
  value.filter (fun c => c.isDigit || c == '.')

/-- The text handed to `parseFloat`: `value` after the strip, the merge of every segment after
the first `'.'` and the cut of the fraction to two characters (Helper.js lines 252-263). -/
def currencyBuffer (value : List Char) : List Char :=
  let value := stripNonNumeric value
  let parts := splitDot value
  let parts := if parts.length > 2 then [parts.headD [], join [] (parts.drop 1)] else parts
  let parts := if parts.length > 1 then parts.set 1 ((parts.getD 1 []).take 2) else parts
  join ['.'] parts

/-- The function `Helper.formatCurrency(value)` for a string `value`. -/
def formatCurrency (value : List Char) : List Char :=
  let value := currencyBuffer value
  let displayValue := toFixed (parseFloat value) 2
  if isNaN displayValue then "0.00".toList else displayValue

/-! ## `Helper.lpad` and `Helper.rpad` -/

/-- The property `length` of a string: its number of UTF-16 code units, two for a character
beyond U+FFFF. -/
def jsLength (s : List Char) : Nat :=
  (s.map (fun c => if c.toNat < 65536 then 1 else 2)).sum

/-- The expression `Array.from({length: n}).join(sep)`: the `n` elements are `undefined`, which
`join` renders as empty strings, so the result is `n - 1` copies of `sep`. -/
def joinUndefined (n : Nat) (sep : List Char) : List Char :=
  (List.replicate (n - 1) sep).flatten

/-- The function `Helper.lpad(str, char, len)`.  `toStr` is the method `toString()` of the
value `str`; `char` and `len` are `none` when the argument is `undefined` or left out. -/
def lpad {V : Type} (toStr : V → List Char) (str : V) (char : Option (List Char))
    (len : Option Nat) : List Char :=
  -- default parameters `char = '0'`, `len = 2`
  let char := char.getD ['0']
  let len := len.getD 2
  -- `char = char || '0'`: the empty string is falsy
  let char := if char = [] then ['0'] else char
  let str := toStr str
  if len ≤ jsLength str then str
  else joinUndefined (len - jsLength str + 1) char ++ str

/-- The function `Helper.rpad(str, char, len)`, with the conventions of `lpad`. -/
def rpad {V : Type} (toStr : V → List Char) (str : V) (char : Option (List Char))
    (len : Option Nat) : List Char :=
  let len := len.getD 2
  -- `char = char || '0'`: `undefined` and the empty string are falsy
  let char := if char.getD [] = [] then ['0'] else char.getD []
  let str := toStr str
  if len ≤ jsLength str then str
  else str ++ joinUndefined (len - jsLength str + 1) char

/-! ## `Helper.pluralise` -/

/-- A JavaScript value, as far as `typeof` tells values apart. -/
inductive JSValue where
  | undefined : JSValue
  | null : JSValue
  | boolean (b : Bool) : JSValue
  | number (x : JSNumber) : JSValue
  | string (s : List Char) : JSValue
  | object : JSValue
  deriving DecidableEq

/-- An exception thrown by the platform. -/
inductive JSError where
  | typeError : JSError
  deriving DecidableEq

deriving instance DecidableEq for Except

/-- The character U+0027, the apostrophe. -/
def apostrophe : Char := Char.ofNat 39

/-- The characters that `trim()` removes: the white space and line terminator code points of
ECMAScript (TAB, LF, VT, FF, CR, SP, NBSP, U+1680, U+2000 to U+200A, U+2028, U+2029, U+202F,
U+205F, U+3000, U+FEFF). -/
def isWhiteSpace (c : Char) : Bool :=
  [9, 10, 11, 12, 13, 32, 160, 5760, 8232, 8233, 8239, 8287, 12288, 65279].contains c.toNat ||
    (8192 ≤ c.toNat && c.toNat ≤ 8202)

/-- The method `trim()`. -/
def trim (s : List Char) : List Char :=
  ((s.dropWhile isWhiteSpace).reverse.dropWhile isWhiteSpace).reverse

/-- The method `toLowerCase()` on the one-character string `str[str.length - 1]`, as far as the
comparisons with `'s'` and `'y'` can tell: ASCII capitals are lowered, and no other character
has `s` or `y` as its lower-case form. -/
def toLowerCase (c : Char) : Char := c.toLower

/-- The function `Helper.pluralise(str, possessive)`; `possessive` is `false` when the argument
is left out.  On the empty string `str[str.length - 1]` is `undefined`, and the call of
`toLowerCase` on it throws a `TypeError`. -/
def pluralise (str : JSValue) (possessive : Bool) : Except JSError (List Char) :=
  match str with
  | JSValue.string s =>
    let str := trim s
    match str.getLast? with
    | none => Except.error JSError.typeError
    | some c =>
      let last := toLowerCase c
      if possessive then
        Except.ok (str ++ (if last = 's' then [apostrophe] else [apostrophe, 's']))
      else if last = 's' then Except.ok (str ++ [apostrophe])
      else if last = 'y' then Except.ok (str.dropLast ++ "ies".toList)
      else Except.ok (str ++ ['s'])
  | _ => Except.ok []

/-! ## `Helper.chunk` -/

/-- The method `slice(start, end)` of an array. -/
def arraySlice {α : Type} (arr : List α) (start stop : Nat) : List α :=
  (arr.take stop).drop start

/-- The loop of `chunk` (Helper.js lines 414-415) from index `i` on, with `r` the slices pushed
so far: `none` when `fuel` iterations do not reach the end of the loop. -/
def chunkLoop {α : Type} (arr : List α) (chunk_size : Nat) :
    Nat → Nat → List (List α) → Option (List (List α))
  | fuel, i, r =>
    if i < arr.length then
      match fuel with
      | 0 => none
      | fuel + 1 =>
        chunkLoop arr chunk_size fuel (i + chunk_size) (r ++ [arraySlice arr i (i + chunk_size)])
    else some r

/-- The function `Helper.chunk(arr, chunk_size)`, run for at most `fuel` iterations. -/
def chunk {α : Type} (arr : List α) (chunk_size : Nat) (fuel : Nat) :
    Option (List (List α)) :=
  chunkLoop arr chunk_size fuel 0 []

/-! ## `Helper.ordinalSuffix` -/

/-- The call `Number::toString(x)` for a non-negative integral Number with value `X`: the
shortest digits that convert back to `X`, followed by zeros up to the decimal point when the
integer has at most 21 digits, and exponential notation beyond. -/
def integerToString (X : Nat) : List Char :=
  if X = 0 then ['0']
  else
    let D := (decimalDigits X).length
    let (s, k, n) := shortestDigits X D D
    if n ≤ 21 then decimalDigits s ++ List.replicate (n - k) '0'
    else numberToStringLarge X

/-- The method `slice(-1)` on a text of ASCII characters: the last character, or the whole of
an empty string. -/
def sliceLastOne (s : List Char) : List Char := s.drop (s.length - 1)

/-- The function `Helper.ordinalSuffix(number)` for a non-negative integral Number with value
`number`. -/
def ordinalSuffix (number : Nat) : List Char :=
  let numStr := integerToString number
  let last := sliceLastOne numStr
  let ord :=
    if last = ['1'] then
      (if sliceLastTwo numStr = ['1', '1'] then ['t', 'h'] else ['s', 't'])
    else if last = ['2'] then
      (if sliceLastTwo numStr = ['1', '2'] then ['t', 'h'] else ['n', 'd'])
    else if last = ['3'] then
      (if sliceLastTwo numStr = ['1', '3'] then ['t', 'h'] else ['r', 'd'])
    else ['t', 'h']
  integerToString number ++ ord

/-! ## Vocabulary of the statements -/

/-- The segments after the first one, as `split` sees them. -/
def afterFirstDot (t : List Char) : List (List Char) :=
  match t.dropWhile (fun c => c != '.') with
  | [] => []
  | _ :: r => splitDot r

/-- The digits of the sanitised input that stand before its first `'.'`. -/
def integerDigits (value : List Char) : List Char :=
  (stripNonNumeric value).takeWhile (fun c => c != '.')

/-- The digits of the sanitised input that follow its first `'.'`. -/
def fractionDigits (value : List Char) : List Char :=
  ((stripNonNumeric value).dropWhile (fun c => c != '.')).filter Char.isDigit

/-- A digit string without its leading zeros, `"0"` when nothing is left. -/
def dropLeadingZeros (ds : List Char) : List Char :=
  let t := ds.dropWhile (fun c => c == '0')
  if t = [] then ['0'] else t

/-- The two fraction characters of the result: the kept digits then `'0'` up to two. -/
def padFraction (ds : List Char) : List Char :=
  ds ++ List.replicate (2 - ds.length) '0'

/-- The text `s` with every `'.'` after the first one removed. -/
def dropLaterDots : List Char → List Char
  | [] => []
  | c :: t => if c = '.' then c :: t.filter (fun x => x != '.') else c :: dropLaterDots t

/-- The shape `^\d+\.\d{2}$`: one or more digits, a `'.'`, then exactly two digits. -/
def CurrencyShape (s : List Char) : Prop :=
  ∃ ds a b, s = ds ++ ['.', a, b] ∧ ds ≠ [] ∧ (∀ c ∈ ds, c.isDigit = true) ∧
    a.isDigit = true ∧ b.isDigit = true

/-- The integer `n` with `n / 100` nearest to `num / den`, the larger one on a tie. -/
def nearestHundredths (num den : Nat) : Nat := (2 * 10 ^ 2 * num + den) / (2 * den)

/-- A text without bracket characters. -/
def BracketFree (s : List Char) : Prop := ∀ c ∈ s, c ≠ '[' ∧ c ≠ ']'

/-- A value rendered on two decimal digits, with a leading zero below ten. -/
def twoDigitText (v : Nat) : List Char :=
  if v < 10 then '0' :: decimalDigits v else decimalDigits v

/-- The hour of the 12-hour clock: `h mod 12` with `0` replaced by `12`. -/
def twelveHour (h : Nat) : Nat := if h % 12 = 0 then 12 else h % 12

/-! ## Lemmas on `splitDot` and `join` -/

theorem splitDot_ne_nil (t : List Char) : splitDot t ≠ [] := by
  cases t with
  | nil => simp [splitDot]
  | cons c t =>
    unfold splitDot
    cases h : splitDot t with
    | nil => simp
    | cons seg segs => by_cases hc : c = '.' <;> simp [hc]

theorem splitDot_cons_dot (t : List Char) : splitDot ('.' :: t) = [] :: splitDot t := by
  have h := splitDot_ne_nil t
  conv_lhs => unfold splitDot
  cases hs : splitDot t with
  | nil => exact absurd hs h
  | cons seg segs => simp

theorem splitDot_cons_ne (c : Char) (t : List Char) (hc : c ≠ '.') :
    splitDot (c :: t) = (c :: (splitDot t).headD []) :: (splitDot t).tail := by
  have h := splitDot_ne_nil t
  conv_lhs => unfold splitDot
  cases hs : splitDot t with
  | nil => exact absurd hs h
  | cons seg segs => simp [hc]

theorem splitDot_eq (t : List Char) :
    splitDot t = t.takeWhile (fun c => c != '.') :: afterFirstDot t := by
  induction t with
  | nil => simp [splitDot, afterFirstDot]
  | cons c t ih =>
    by_cases hc : c = '.'
    · subst hc
      rw [splitDot_cons_dot]
      simp [afterFirstDot]
    · rw [splitDot_cons_ne c t hc, ih]
      simp [afterFirstDot, hc]

theorem join_nil_eq (l : List (List Char)) : join [] l = l.flatten := by
  induction l with
  | nil => rfl
  | cons a rest ih =>
    cases rest with
    | nil => simp [join]
    | cons b rest => simp [join, ih]

theorem flatten_splitDot (t : List Char) :
    (splitDot t).flatten = t.filter (fun c => c != '.') := by
  induction t with
  | nil => simp [splitDot]
  | cons c t ih =>
    by_cases hc : c = '.'
    · subst hc
      rw [splitDot_cons_dot]
      simp [ih]
    · rw [splitDot_cons_ne c t hc]
      have h := splitDot_ne_nil t
      cases hs : splitDot t with
      | nil => exact absurd hs h
      | cons seg segs =>
        rw [hs] at ih
        simp [hc] at ih ⊢
        exact ih

/-! ## The text handed to `parseFloat` -/

theorem mem_stripNonNumeric {value : List Char} {c : Char} (h : c ∈ stripNonNumeric value) :
    c.isDigit = true ∨ c = '.' := by
  simpa [stripNonNumeric] using (List.mem_filter.mp h).2

theorem filter_ne_dot_eq (r : List Char) (h : ∀ c ∈ r, c.isDigit = true ∨ c = '.') :
    r.filter (fun c => c != '.') = r.filter Char.isDigit := by
  apply List.filter_congr
  intro c hc
  rcases h c hc with hd | hd
  · have : c ≠ '.' := by
      rintro rfl
      exact absurd hd (by decide)
    simp [hd, this]
  · subst hd
    decide

theorem integerDigits_isDigit (value : List Char) :
    ∀ c ∈ integerDigits value, c.isDigit = true := by
  intro c hc
  have h1 : c ∈ stripNonNumeric value := List.takeWhile_subset _ hc
  have h2 := List.mem_takeWhile_imp hc
  rcases mem_stripNonNumeric h1 with h | h
  · exact h
  · simp [h] at h2

theorem fractionDigits_isDigit (value : List Char) :
    ∀ c ∈ fractionDigits value, c.isDigit = true := by
  intro c hc
  exact (List.mem_filter.mp hc).2

theorem currencyBuffer_eq (value : List Char) :
    currencyBuffer value =
      integerDigits value ++
        (if '.' ∈ stripNonNumeric value then '.' :: (fractionDigits value).take 2 else []) := by
  unfold currencyBuffer integerDigits fractionDigits
  generalize ht : stripNonNumeric value = t
  have hall : ∀ c ∈ t, c.isDigit = true ∨ c = '.' := by
    intro c hc
    rw [← ht] at hc
    exact mem_stripNonNumeric hc
  simp only [splitDot_eq t]
  cases hd : t.dropWhile (fun c => c != '.') with
  | nil =>
    have hno : '.' ∉ t := by
      intro hmem
      have := List.dropWhile_eq_nil_iff.mp hd '.' hmem
      simp at this
    simp [afterFirstDot, hd, hno, join]
  | cons d r =>
    have hdot : d = '.' := by
      have := List.head_dropWhile_not (fun c => c != '.') t
      simp [hd] at this
      exact this
    subst hdot
    have hmem : '.' ∈ t := by
      have : '.' ∈ t.dropWhile (fun c => c != '.') := by simp [hd]
      exact (List.dropWhile_sublist _).subset this
    have hr : ∀ c ∈ r, c.isDigit = true ∨ c = '.' := by
      intro c hc
      apply hall
      have : c ∈ t.dropWhile (fun c => c != '.') := by simp [hd, hc]
      exact (List.dropWhile_sublist _).subset this
    have hflat : (splitDot r).flatten = r.filter Char.isDigit := by
      rw [flatten_splitDot, filter_ne_dot_eq r hr]
    have hfd : ('.' :: r).filter Char.isDigit = r.filter Char.isDigit := by
      simp [List.filter_cons]
    simp only [afterFirstDot, hd, hmem, if_true]
    have hne := splitDot_ne_nil r
    cases hs : splitDot r with
    | nil => exact absurd hs hne
    | cons seg segs =>
      rw [hs] at hflat
      cases segs with
      | nil =>
        simp at hflat
        simp [join, hflat, hfd]
      | cons seg2 segs =>
        simp [join_nil_eq] at hflat ⊢
        simp [join, hflat, hfd]

/-! ## Lemmas on decimal numerals -/

theorem toDigitsCore_eq (n : Nat) :
    ∀ fuel acc, n < fuel → Nat.toDigitsCore 10 fuel n acc = Nat.toDigits 10 n ++ acc := by
  induction n using Nat.strong_induction_on with
  | _ n ih =>
    intro fuel acc hf
    cases fuel with
    | zero => omega
    | succ f =>
      unfold Nat.toDigits
      simp only [Nat.toDigitsCore]
      by_cases h0 : n / 10 = 0
      · simp [h0]
      · have hlt : n / 10 < n := by omega
        simp only [h0, if_false]
        rw [ih (n / 10) hlt f _ (by omega), ih (n / 10) hlt n _ hlt]
        simp

theorem decimalDigits_lt_ten (n : Nat) (h : n < 10) : decimalDigits n = [Nat.digitChar n] := by
  have h0 : n / 10 = 0 := by omega
  have h1 : n % 10 = n := by omega
  simp [decimalDigits, Nat.toDigits, Nat.toDigitsCore, h0, h1]

theorem decimalDigits_step (n : Nat) (h : 10 ≤ n) :
    decimalDigits n = decimalDigits (n / 10) ++ [Nat.digitChar (n % 10)] := by
  have h0 : n / 10 ≠ 0 := by omega
  have hlt : n / 10 < n := by omega
  unfold decimalDigits
  conv_lhs => unfold Nat.toDigits
  simp only [Nat.toDigitsCore, h0, if_false]
  rw [toDigitsCore_eq (n / 10) n _ hlt]

theorem decimalDigits_mul_add (q d : Nat) (hq : 0 < q) (hd : d < 10) :
    decimalDigits (10 * q + d) = decimalDigits q ++ [Nat.digitChar d] := by
  rw [decimalDigits_step (10 * q + d) (by omega)]
  have h1 : (10 * q + d) / 10 = q := by omega
  have h2 : (10 * q + d) % 10 = d := by omega
  rw [h1, h2]

theorem digitChar_isDigit (d : Nat) (h : d < 10) : (Nat.digitChar d).isDigit = true := by
  interval_cases d <;> decide

theorem digitChar_ne_dot (d : Nat) (h : d < 10) : Nat.digitChar d ≠ '.' := by
  interval_cases d <;> decide

theorem digitChar_toNat (d : Nat) (h : d < 10) : (Nat.digitChar d).toNat - 48 = d := by
  interval_cases d <;> decide

theorem digitChar_of_isDigit (c : Char) (h : c.isDigit = true) :
    Nat.digitChar (c.toNat - 48) = c := by
  have h1 : 48 ≤ c.toNat ∧ c.toNat ≤ 57 := by
    simpa [Char.isDigit, Char.toNat, UInt32.le_def, Nat.le_antisymm_iff] using h
  obtain ⟨h48, h57⟩ := h1
  have hc : c = Char.ofNat c.toNat := by simp
  generalize hn : c.toNat = n at *
  rw [hc]
  interval_cases n <;> decide

theorem toNat_sub_lt_ten (c : Char) (h : c.isDigit = true) : c.toNat - 48 < 10 := by
  have h1 : 48 ≤ c.toNat ∧ c.toNat ≤ 57 := by
    simpa [Char.isDigit, Char.toNat, UInt32.le_def] using h
  omega

theorem decimalDigits_ne_nil (n : Nat) : decimalDigits n ≠ [] := by
  by_cases h : n < 10
  · simp [decimalDigits_lt_ten n h]
  · rw [decimalDigits_step n (by omega)]
    simp

theorem decimalDigits_isDigit (n : Nat) : ∀ c ∈ decimalDigits n, c.isDigit = true := by
  induction n using Nat.strong_induction_on with
  | _ n ih =>
    intro c hc
    by_cases h : n < 10
    · rw [decimalDigits_lt_ten n h] at hc
      simp at hc
      subst hc
      exact digitChar_isDigit n h
    · rw [decimalDigits_step n (by omega)] at hc
      simp at hc
      rcases hc with hc | hc
      · exact ih (n / 10) (by omega) c hc
      · subst hc
        exact digitChar_isDigit _ (Nat.mod_lt _ (by decide))

theorem digitsValue_append_singleton (ds : List Char) (c : Char) :
    digitsValue (ds ++ [c]) = 10 * digitsValue ds + (c.toNat - 48) := by
  simp [digitsValue, List.foldl_append]

theorem digitsValue_append (ds es : List Char) :
    digitsValue (ds ++ es) = digitsValue ds * 10 ^ es.length + digitsValue es := by
  induction es using List.reverseRecOn with
  | nil => simp [digitsValue]
  | append_singleton es c ih =>
    rw [← List.append_assoc, digitsValue_append_singleton, digitsValue_append_singleton, ih]
    simp [pow_succ]
    ring

theorem digitsValue_decimalDigits (n : Nat) : digitsValue (decimalDigits n) = n := by
  induction n using Nat.strong_induction_on with
  | _ n ih =>
    by_cases h : n < 10
    · rw [decimalDigits_lt_ten n h]
      simp [digitsValue, digitChar_toNat n h]
    · rw [decimalDigits_step n (by omega), digitsValue_append_singleton, ih (n / 10) (by omega),
        digitChar_toNat _ (Nat.mod_lt _ (by decide))]
      omega

theorem digitsValue_eq_zero_iff (ds : List Char) (hd : ∀ c ∈ ds, c.isDigit = true) :
    digitsValue ds = 0 ↔ ds.dropWhile (fun c => c == '0') = [] := by
  induction ds using List.reverseRecOn with
  | nil => simp [digitsValue]
  | append_singleton ds c ih =>
    have hd1 : ∀ c ∈ ds, c.isDigit = true := fun x hx => hd x (by simp [hx])
    have hc : c.isDigit = true := hd c (by simp)
    rw [digitsValue_append_singleton]
    have hcz : c.toNat - 48 = 0 ↔ c = '0' := by
      constructor
      · intro h
        have := digitChar_of_isDigit c hc
        rw [h] at this
        exact this.symm
      · rintro rfl
        decide
    rw [List.dropWhile_eq_nil_iff] at ih ⊢
    constructor
    · intro h
      have h1 : digitsValue ds = 0 := by omega
      have h2 : c.toNat - 48 = 0 := by omega
      intro x hx
      simp at hx
      rcases hx with hx | hx
      · exact (ih hd1).mp h1 x hx
      · simp [hx, hcz.mp h2]
    · intro h
      have h1 : digitsValue ds = 0 := (ih hd1).mpr (fun x hx => h x (by simp [hx]))
      have h2 : c = '0' := by simpa using h c (by simp)
      rw [h1, hcz.mpr h2]

theorem decimalDigits_digitsValue (ds : List Char) (hd : ∀ c ∈ ds, c.isDigit = true) :
    decimalDigits (digitsValue ds) = dropLeadingZeros ds := by
  induction ds using List.reverseRecOn with
  | nil =>
    simp [digitsValue, dropLeadingZeros, decimalDigits_lt_ten]
    rfl
  | append_singleton ds c ih =>
    have hd1 : ∀ c ∈ ds, c.isDigit = true := fun x hx => hd x (by simp [hx])
    have hc : c.isDigit = true := hd c (by simp)
    have hlt := toNat_sub_lt_ten c hc
    rw [digitsValue_append_singleton]
    by_cases hz : digitsValue ds = 0
    · have hnil := (digitsValue_eq_zero_iff ds hd1).mp hz
      have hall : ∀ x ∈ ds, (x == '0') = true := List.dropWhile_eq_nil_iff.mp hnil
      rw [hz, Nat.mul_zero, Nat.zero_add, decimalDigits_lt_ten _ hlt, digitChar_of_isDigit c hc]
      unfold dropLeadingZeros
      rw [List.dropWhile_append_of_pos hall]
      by_cases hc0 : c = '0'
      · subst hc0
        simp
      · simp [hc0]
    · rw [decimalDigits_mul_add _ _ (Nat.pos_of_ne_zero hz) hlt, ih hd1,
        digitChar_of_isDigit c hc]
      have hne : ds.dropWhile (fun c => c == '0') ≠ [] := by
        intro h
        exact hz ((digitsValue_eq_zero_iff ds hd1).mpr h)
      unfold dropLeadingZeros
      have happ : (ds ++ [c]).dropWhile (fun c => c == '0') =
          ds.dropWhile (fun c => c == '0') ++ [c] := by
        rw [List.dropWhile_append]
        simp [hne]
      rw [happ]
      simp [hne]

/-! ## Lemmas on rounding -/

theorem floorLog2_le (fuel : Nat) : ∀ n b, n < 2 ^ (b + 1) → floorLog2 fuel n ≤ b := by
  induction fuel with
  | zero => intro n b _; simp [floorLog2]
  | succ fuel ih =>
    intro n b h
    unfold floorLog2
    by_cases h2 : n < 2
    · simp [h2]
    · simp only [h2, if_false]
      cases b with
      | zero => simp at h; omega
      | succ b =>
        have : n / 2 < 2 ^ (b + 1) := by
          rw [pow_succ] at h
          omega
        have := ih (n / 2) b this
        omega

theorem floorLog2_pow_le (fuel : Nat) : ∀ n, 0 < n → n ≤ fuel → 2 ^ floorLog2 fuel n ≤ n := by
  induction fuel with
  | zero => intro n h1 h2; omega
  | succ fuel ih =>
    intro n h1 h2
    unfold floorLog2
    by_cases h : n < 2
    · rw [if_pos h]; omega
    · simp only [h, if_false]
      have := ih (n / 2) (by omega) (by omega)
      rw [pow_succ]
      omega

theorem lt_floorLog2_pow (fuel : Nat) : ∀ n, n ≤ fuel → n < 2 ^ (floorLog2 fuel n + 1) := by
  induction fuel with
  | zero => intro n h2; simp [floorLog2]; omega
  | succ fuel ih =>
    intro n h2
    unfold floorLog2
    by_cases h : n < 2
    · rw [if_pos h]; omega
    · simp only [h, if_false]
      have := ih (n / 2) (by omega)
      rw [pow_succ]
      omega

theorem roundTiesToEven_bounds (N D : Nat) (hD : 0 < D) :
    2 * (roundTiesToEven N D * D) ≤ 2 * N + D ∧ 2 * N ≤ 2 * (roundTiesToEven N D * D) + D := by
  have h1 := Nat.div_add_mod N D
  have h2 := Nat.mod_lt N hD
  have h3 : (N / D + 1) * D = D * (N / D) + D := by ring
  have h4 : N / D * D = D * (N / D) := by ring
  unfold roundTiesToEven
  simp only
  split_ifs <;> first
    | (rw [h3]; omega)
    | (rw [h4]; omega)

theorem toDouble_small (N D : Nat) (hD : 0 < D) (h : N < D * 2 ^ 46) :
    ∃ M j, toDouble N D = JSNumber.finite M (2 ^ j) ∧ 7 ≤ j ∧
      2 * (M * D) ≤ 2 * (N * 2 ^ j) + D ∧ 2 * (N * 2 ^ j) ≤ 2 * (M * D) + D := by
  have hnot : ¬ D * 2 ^ 52 ≤ N := by
    have : D * 2 ^ 46 ≤ D * 2 ^ 52 := Nat.mul_le_mul_left D (by norm_num)
    omega
  have hw : N * 2 ^ 1074 / D < 2 ^ (1119 + 1) := by
    rw [Nat.div_lt_iff_lt_mul hD]
    calc N * 2 ^ 1074 < D * 2 ^ 46 * 2 ^ 1074 := Nat.mul_lt_mul_of_pos_right h (by positivity)
      _ = 2 ^ (1119 + 1) * D := by ring
  have hl := floorLog2_le (N * 2 ^ 1074 / D) _ 1119 hw
  refine ⟨roundTiesToEven (N * 2 ^ (1074 - (floorLog2 (N * 2 ^ 1074 / D) (N * 2 ^ 1074 / D) - 52))) D,
    1074 - (floorLog2 (N * 2 ^ 1074 / D) (N * 2 ^ 1074 / D) - 52), ?_, by omega, ?_⟩
  · unfold toDouble
    rw [if_neg hnot]
  · exact roundTiesToEven_bounds _ D hD

/-- The integer that `toFixed(2)` renders is exactly `100 * N / D` when the Number was
converted from a value `N / D` below `2 ^ 46` that has at most two decimals. -/
theorem fixed_of_bounds (N D M Q k : Nat) (hD : 0 < D) (hQ : 128 ≤ Q) (hk : 100 * N = k * D)
    (h1 : 2 * (M * D) ≤ 2 * (N * Q) + D) (h2 : 2 * (N * Q) ≤ 2 * (M * D) + D) :
    (2 * 10 ^ 2 * M + Q) / (2 * Q) = k := by
  have hQ0 : 0 < 2 * Q := by omega
  apply Nat.div_eq_of_lt_le
  · -- k * (2 * Q) ≤ 200 * M + Q
    apply Nat.le_of_mul_le_mul_right _ hD
    have e1 : k * (2 * Q) * D = 200 * (N * Q) := by
      calc k * (2 * Q) * D = (k * D) * (2 * Q) := by ring
        _ = 100 * N * (2 * Q) := by rw [hk]
        _ = 200 * (N * Q) := by ring
    have e2 : (2 * 10 ^ 2 * M + Q) * D = 200 * (M * D) + Q * D := by ring
    rw [e1, e2]
    have : 128 * D ≤ Q * D := Nat.mul_le_mul_right D hQ
    omega
  · apply Nat.lt_of_mul_lt_mul_right (a := D)
    have e1 : (k + 1) * (2 * Q) * D = 200 * (N * Q) + 2 * (Q * D) := by
      calc (k + 1) * (2 * Q) * D = (k * D) * (2 * Q) + 2 * (Q * D) := by ring
        _ = 100 * N * (2 * Q) + 2 * (Q * D) := by rw [hk]
        _ = 200 * (N * Q) + 2 * (Q * D) := by ring
    have e2 : (2 * 10 ^ 2 * M + Q) * D = 200 * (M * D) + Q * D := by ring
    rw [e1, e2]
    have : 128 * D ≤ Q * D := Nat.mul_le_mul_right D hQ
    omega

/-! ## Lemmas on `toFixed`, `isNaN` and `parseFloat` -/

theorem digitChar_zero : Nat.digitChar 0 = '0' := rfl

theorem toFixed_two (num den : Nat) (h : ¬ 10 ^ 21 * den ≤ num) :
    toFixed (JSNumber.finite num den) 2 =
      decimalDigits ((2 * 10 ^ 2 * num + den) / (2 * den) / 100) ++
        ['.', Nat.digitChar ((2 * 10 ^ 2 * num + den) / (2 * den) % 100 / 10),
          Nat.digitChar ((2 * 10 ^ 2 * num + den) / (2 * den) % 10)] := by
  unfold toFixed
  simp only [h, if_false]
  generalize (2 * 10 ^ 2 * num + den) / (2 * den) = n
  by_cases h0 : n = 0
  · subst h0
    simp [decimalDigits_lt_ten, digitChar_zero]
  by_cases h1 : n < 10
  · have e1 : n / 100 = 0 := by omega
    have e2 : n % 100 / 10 = 0 := by omega
    have e3 : n % 10 = n := by omega
    simp [h0, decimalDigits_lt_ten n h1, e1, e2, e3, decimalDigits_lt_ten 0, digitChar_zero]
  by_cases h2 : n < 100
  · have e1 : n / 100 = 0 := by omega
    have e2 : n % 100 / 10 = n / 10 := by omega
    have e4 : n / 10 < 10 := by omega
    simp [h0, decimalDigits_step n (by omega), decimalDigits_lt_ten (n / 10) e4, e1, e2,
      decimalDigits_lt_ten 0, digitChar_zero]
  · have e1 : n / 10 / 10 = n / 100 := by omega
    have e2 : n % 100 / 10 = n / 10 % 10 := by omega
    have hne := decimalDigits_ne_nil (n / 100)
    have hpos : 0 < (decimalDigits (n / 100)).length := List.length_pos.mpr hne
    rw [if_neg h0, if_neg (by decide : ¬ (2 = 0)),
      decimalDigits_step n (by omega), decimalDigits_step (n / 10) (by omega), e1, e2]
    have hlen : (decimalDigits (n / 100) ++ [Nat.digitChar (n / 10 % 10)] ++
        [Nat.digitChar (n % 10)]).length = (decimalDigits (n / 100)).length + 2 := by simp
    simp only [hlen]
    rw [if_neg (by omega), if_neg (by omega)]
    simp [List.take_append_eq_append_take, List.drop_append_eq_append_drop]

theorem isDigit_ne_sign (c : Char) (h : c.isDigit = true) : c ≠ '+' ∧ c ≠ '-' ∧ c ≠ 'I' := by
  refine ⟨?_, ?_, ?_⟩ <;> rintro rfl <;> exact absurd h (by decide)

theorem isNaN_fixedText (ds : List Char) (a b : Char) (hne : ds ≠ [])
    (hds : ∀ c ∈ ds, c.isDigit = true) (ha : a.isDigit = true) (hb : b.isDigit = true) :
    isNaN (ds ++ ['.', a, b]) = false := by
  cases ds with
  | nil => exact absurd rfl hne
  | cons d ds =>
    have hd : d.isDigit = true := hds d (by simp)
    obtain ⟨hp, hm, hI⟩ := isDigit_ne_sign d hd
    have htake : (d :: ds ++ ['.', a, b]).takeWhile Char.isDigit = d :: ds := by
      rw [List.takeWhile_append_of_pos hds]
      simp [List.takeWhile]
    have hdrop : (d :: ds ++ ['.', a, b]).dropWhile Char.isDigit = ['.', a, b] := by
      rw [List.dropWhile_append_of_pos hds]
      simp [List.dropWhile]
    unfold isNaN isNumericText
    have hbody : (match d :: ds ++ ['.', a, b] with
      | '+' :: t => t
      | '-' :: t => t
      | _ => d :: ds ++ ['.', a, b]) = d :: ds ++ ['.', a, b] := by
      simp only [List.cons_append]
      split
      · rename_i heq; simp at heq; exact absurd heq.1 hp
      · rename_i heq; simp at heq; exact absurd heq.1 hm
      · rfl
    simp only [hbody, htake, hdrop]
    have hInf : ¬ (d :: ds ++ ['.', a, b] = "Infinity".toList) := by
      intro heq
      have : d = 'I' := by
        have := congrArg List.head? heq
        simpa using this
      exact hI this
    simp [hInf, List.takeWhile, List.dropWhile, ha, hb, isExponentTail]

theorem isNaN_NaN : isNaN "NaN".toList = true := by decide

theorem parseFloat_digits_dot (ip fp : List Char) (hi : ∀ c ∈ ip, c.isDigit = true)
    (hf : ∀ c ∈ fp, c.isDigit = true) :
    parseFloat (ip ++ '.' :: fp) =
      if ip = [] ∧ fp = [] then JSNumber.nan
      else toDouble (digitsValue (ip ++ fp)) (10 ^ fp.length) := by
  have hdot : Char.isDigit '.' = false := by decide
  have htake : (ip ++ '.' :: fp).takeWhile Char.isDigit = ip := by
    rw [List.takeWhile_append_of_pos hi]
    simp [List.takeWhile, hdot]
  have hdrop : (ip ++ '.' :: fp).dropWhile Char.isDigit = '.' :: fp := by
    rw [List.dropWhile_append_of_pos hi]
    simp [List.dropWhile, hdot]
  have hfp : fp.takeWhile Char.isDigit = fp := by
    rw [List.takeWhile_eq_self_iff]
    exact hf
  unfold parseFloat
  simp only [htake, hdrop, hfp]

theorem parseFloat_digits (ip : List Char) (hi : ∀ c ∈ ip, c.isDigit = true) :
    parseFloat ip =
      if ip = [] then JSNumber.nan else toDouble (digitsValue ip) 1 := by
  have htake : ip.takeWhile Char.isDigit = ip := by
    rw [List.takeWhile_eq_self_iff]
    exact hi
  have hdrop : ip.dropWhile Char.isDigit = [] := by
    rw [List.dropWhile_eq_nil_iff]
    exact hi
  unfold parseFloat
  simp [htake, hdrop]

/-! ## `formatCurrency` on a value below `2 ^ 46` -/

theorem fractionDigits_eq_nil (value : List Char) (h : '.' ∉ stripNonNumeric value) :
    fractionDigits value = [] := by
  unfold fractionDigits
  have : (stripNonNumeric value).dropWhile (fun c => c != '.') = [] := by
    rw [List.dropWhile_eq_nil_iff]
    intro c hc
    have : c ≠ '.' := by
      rintro rfl
      exact h hc
    simp [this]
  rw [this]
  rfl

theorem parseFloat_currencyBuffer (value : List Char) :
    parseFloat (currencyBuffer value) =
      if integerDigits value = [] ∧ (fractionDigits value).take 2 = [] then JSNumber.nan
      else toDouble (digitsValue (integerDigits value ++ (fractionDigits value).take 2))
        (10 ^ ((fractionDigits value).take 2).length) := by
  have hi := integerDigits_isDigit value
  have hf : ∀ c ∈ (fractionDigits value).take 2, c.isDigit = true :=
    fun c hc => fractionDigits_isDigit value c (List.mem_of_mem_take hc)
  rw [currencyBuffer_eq]
  by_cases hdot : '.' ∈ stripNonNumeric value
  · rw [if_pos hdot, parseFloat_digits_dot _ _ hi hf]
  · rw [if_neg hdot, fractionDigits_eq_nil value hdot, List.append_nil, parseFloat_digits _ hi]
    simp

theorem formatCurrency_of_nan (value : List Char)
    (h : parseFloat (currencyBuffer value) = JSNumber.nan) :
    formatCurrency value = "0.00".toList := by
  unfold formatCurrency
  simp only [h]
  have : toFixed JSNumber.nan 2 = "NaN".toList := rfl
  rw [this, isNaN_NaN]
  rfl

theorem formatCurrency_of_finite (value : List Char) (num den : Nat)
    (h : parseFloat (currencyBuffer value) = JSNumber.finite num den)
    (hsmall : ¬ 10 ^ 21 * den ≤ num) :
    formatCurrency value =
      decimalDigits ((2 * 10 ^ 2 * num + den) / (2 * den) / 100) ++
        ['.', Nat.digitChar ((2 * 10 ^ 2 * num + den) / (2 * den) % 100 / 10),
          Nat.digitChar ((2 * 10 ^ 2 * num + den) / (2 * den) % 10)] := by
  unfold formatCurrency
  simp only [h]
  rw [toFixed_two num den hsmall]
  rw [isNaN_fixedText _ _ _ (decimalDigits_ne_nil _) (decimalDigits_isDigit _)
    (digitChar_isDigit _ (by omega)) (digitChar_isDigit _ (by omega))]
  simp

/-- When the text handed to `parseFloat` denotes `N / D = k / 100` below `2 ^ 46`, the result
is the exact decimal rendering of `k / 100`. -/
theorem formatCurrency_of_toDouble (value : List Char) (N D k : Nat) (hD : 0 < D)
    (h : parseFloat (currencyBuffer value) = toDouble N D) (hlt : N < D * 2 ^ 46)
    (hk : 100 * N = k * D) :
    formatCurrency value =
      decimalDigits (k / 100) ++ ['.', Nat.digitChar (k % 100 / 10), Nat.digitChar (k % 10)] := by
  obtain ⟨M, j, hM, hj, hb1, hb2⟩ := toDouble_small N D hD hlt
  have hQ : 128 ≤ 2 ^ j := by
    calc 128 = 2 ^ 7 := by norm_num
      _ ≤ 2 ^ j := Nat.pow_le_pow_right (by norm_num) hj
  have hn := fixed_of_bounds N D M (2 ^ j) k hD hQ hk hb1 hb2
  have hsmall : ¬ 10 ^ 21 * 2 ^ j ≤ M := by
    intro hbig
    -- then k would be at least 10 ^ 23, but k * D = 100 * N < 100 * D * 2 ^ 46
    have h1 : 10 ^ 21 * 2 ^ j * D ≤ M * D := Nat.mul_le_mul_right D hbig
    have h2 : N * 2 ^ j < D * 2 ^ 46 * 2 ^ j := Nat.mul_lt_mul_of_pos_right hlt (by positivity)
    have h3 : D * 2 ^ 46 * 2 ^ j = 2 ^ 46 * (2 ^ j * D) := by ring
    have h4 : 10 ^ 21 * 2 ^ j * D = 10 ^ 21 * (2 ^ j * D) := by ring
    have h5 : 128 * D ≤ 2 ^ j * D := Nat.mul_le_mul_right D hQ
    rw [h3] at h2
    rw [h4] at h1
    generalize 2 ^ j * D = QD at *
    generalize M * D = MD at *
    generalize N * 2 ^ j = NQ at *
    norm_num at h1 h2
    omega
  rw [formatCurrency_of_finite value M (2 ^ j) (h.trans hM) hsmall, hn]

theorem digitsValue_lt (ds : List Char) (hd : ∀ c ∈ ds, c.isDigit = true) :
    digitsValue ds < 10 ^ ds.length := by
  induction ds using List.reverseRecOn with
  | nil => simp [digitsValue]
  | append_singleton ds c ih =>
    have h1 := ih (fun x hx => hd x (by simp [hx]))
    have h2 := toNat_sub_lt_ten c (hd c (by simp))
    rw [digitsValue_append_singleton]
    simp only [List.length_append, List.length_singleton, pow_succ]
    omega

theorem digits_present (value : List Char)
    (hdigit : ∃ c ∈ stripNonNumeric value, c.isDigit = true) :
    ¬ (integerDigits value = [] ∧ (fractionDigits value).take 2 = []) := by
  rintro ⟨hI, hF⟩
  obtain ⟨c, hc, hcd⟩ := hdigit
  have hF0 : fractionDigits value = [] := by
    cases hfd : fractionDigits value with
    | nil => rfl
    | cons a l => rw [hfd] at hF; simp at hF
  rw [← List.takeWhile_append_dropWhile (fun c => c != '.') (stripNonNumeric value)] at hc
  rcases List.mem_append.mp hc with h | h
  · unfold integerDigits at hI
    rw [hI] at h
    simp at h
  · have : c ∈ fractionDigits value := List.mem_filter.mpr ⟨h, hcd⟩
    rw [hF0] at this
    simp at this

theorem digitsValue_nil : digitsValue [] = 0 := rfl

theorem digitsValue_one (a : Char) : digitsValue [a] = a.toNat - 48 := by
  simp [digitsValue]

theorem digitsValue_two (a b : Char) :
    digitsValue [a, b] = 10 * (a.toNat - 48) + (b.toNat - 48) := by
  simp [digitsValue]

theorem formatCurrency_of_parts (value I F : List Char)
    (hf : ∀ c ∈ F, c.isDigit = true)
    (hI13 : digitsValue I < 10 ^ 13) (hFlen : F.length ≤ 2)
    (hparse : parseFloat (currencyBuffer value) =
      toDouble (digitsValue I * 10 ^ F.length + digitsValue F) (10 ^ F.length)) :
    formatCurrency value = decimalDigits (digitsValue I) ++ ['.'] ++ padFraction F := by
  match F, hFlen, hf, hparse with
  | [], _, _, hparse =>
    have hlt : digitsValue I * 10 ^ ([] : List Char).length + digitsValue [] <
        10 ^ ([] : List Char).length * 2 ^ 46 := by
      simp only [digitsValue_nil, List.length_nil, pow_zero]
      omega
    have hk : 100 * (digitsValue I * 10 ^ ([] : List Char).length + digitsValue []) =
        digitsValue I * 100 * 10 ^ ([] : List Char).length := by
      simp only [digitsValue_nil, List.length_nil, pow_zero]
      ring
    have := formatCurrency_of_toDouble value _ _ (digitsValue I * 100) (by norm_num) hparse
      hlt hk
    rw [this]
    have e1 : digitsValue I * 100 / 100 = digitsValue I := by omega
    have e2 : digitsValue I * 100 % 100 / 10 = 0 := by omega
    have e3 : digitsValue I * 100 % 10 = 0 := by omega
    simp [e1, e2, e3, padFraction, digitChar_zero]
  | [a], _, hf, hparse =>
    have ha := hf a (by simp)
    have hav := toNat_sub_lt_ten a ha
    have hlt : digitsValue I * 10 ^ [a].length + digitsValue [a] < 10 ^ [a].length * 2 ^ 46 := by
      simp only [digitsValue_one, List.length_singleton, pow_one]
      omega
    have hk : 100 * (digitsValue I * 10 ^ [a].length + digitsValue [a]) =
        (digitsValue I * 100 + (a.toNat - 48) * 10) * 10 ^ [a].length := by
      simp only [digitsValue_one, List.length_singleton, pow_one]
      ring
    have := formatCurrency_of_toDouble value _ _ (digitsValue I * 100 + (a.toNat - 48) * 10)
      (by norm_num) hparse hlt hk
    rw [this]
    have e1 : (digitsValue I * 100 + (a.toNat - 48) * 10) / 100 = digitsValue I := by omega
    have e2 : (digitsValue I * 100 + (a.toNat - 48) * 10) % 100 / 10 = a.toNat - 48 := by omega
    have e3 : (digitsValue I * 100 + (a.toNat - 48) * 10) % 10 = 0 := by omega
    simp [e1, e2, e3, padFraction, digitChar_zero, digitChar_of_isDigit a ha]
  | [a, b], _, hf, hparse =>
    have ha := hf a (by simp)
    have hb := hf b (by simp)
    have hav := toNat_sub_lt_ten a ha
    have hbv := toNat_sub_lt_ten b hb
    have hlt : digitsValue I * 10 ^ [a, b].length + digitsValue [a, b] <
        10 ^ [a, b].length * 2 ^ 46 := by
      simp only [digitsValue_two, List.length_cons, List.length_nil]
      omega
    have hk : 100 * (digitsValue I * 10 ^ [a, b].length + digitsValue [a, b]) =
        (digitsValue I * 100 + ((a.toNat - 48) * 10 + (b.toNat - 48))) * 10 ^ [a, b].length := by
      simp only [digitsValue_two, List.length_cons, List.length_nil]
      ring
    have := formatCurrency_of_toDouble value _ _
      (digitsValue I * 100 + ((a.toNat - 48) * 10 + (b.toNat - 48)))
      (by norm_num) hparse hlt hk
    rw [this]
    have e1 : (digitsValue I * 100 + ((a.toNat - 48) * 10 + (b.toNat - 48))) / 100 =
        digitsValue I := by omega
    have e2 : (digitsValue I * 100 + ((a.toNat - 48) * 10 + (b.toNat - 48))) % 100 / 10 =
        a.toNat - 48 := by omega
    have e3 : (digitsValue I * 100 + ((a.toNat - 48) * 10 + (b.toNat - 48))) % 10 =
        b.toNat - 48 := by omega
    simp [e1, e2, e3, padFraction, digitChar_of_isDigit a ha, digitChar_of_isDigit b hb]
  | _ :: _ :: _ :: _, h, _, _ => simp at h

theorem formatCurrency_of_digits (value : List Char)
    (hdigit : ∃ c ∈ stripNonNumeric value, c.isDigit = true)
    (hlen : (integerDigits value).length ≤ 13) :
    formatCurrency value =
      dropLeadingZeros (integerDigits value) ++ ['.'] ++
        padFraction ((fractionDigits value).take 2) := by
  have hi := integerDigits_isDigit value
  have hf : ∀ c ∈ (fractionDigits value).take 2, c.isDigit = true :=
    fun c hc => fractionDigits_isDigit value c (List.mem_of_mem_take hc)
  have hpres := digits_present value hdigit
  have hparse := parseFloat_currencyBuffer value
  rw [if_neg hpres, digitsValue_append] at hparse
  have hI13 : digitsValue (integerDigits value) < 10 ^ 13 :=
    lt_of_lt_of_le (digitsValue_lt _ hi) (Nat.pow_le_pow_right (by norm_num) hlen)
  have hFlen : ((fractionDigits value).take 2).length ≤ 2 := by simp
  rw [← decimalDigits_digitsValue _ hi]
  exact formatCurrency_of_parts value _ _ hf hI13 hFlen hparse

/-- C1: `formatCurrency` truncates and never rounds: when the sanitised input has at least one
digit and at most 13 digits before its first `'.'`, the result is those digits without leading
zeros (`"0"` when none is left), then `'.'`, then the first two of the digits that follow the
first `'.'`, padded on the right with `'0'` to exactly two. -/
theorem formatCurrency_truncates (value : List Char)
    (hdigit : ∃ c ∈ stripNonNumeric value, c.isDigit = true)
    (hlen : (integerDigits value).length ≤ 13) :
    formatCurrency value =
      dropLeadingZeros (integerDigits value) ++ ['.'] ++
        padFraction ((fractionDigits value).take 2) :=
  formatCurrency_of_digits value hdigit hlen

theorem formatCurrency_truncates_witness :
    formatCurrency "1234.5678".toList = "1234.56".toList ∧
      formatCurrency "12.3".toList = "12.30".toList :=
  ⟨(formatCurrency_truncates "1234.5678".toList (by decide) (by decide)).trans (by decide),
    (formatCurrency_truncates "12.3".toList (by decide) (by decide)).trans (by decide)⟩

/-! ## Inputs without a digit -/

theorem formatCurrency_of_no_digit (value : List Char) (h : ∀ c ∈ value, c.isDigit = false) :
    formatCurrency value = "0.00".toList := by
  apply formatCurrency_of_nan
  rw [parseFloat_currencyBuffer]
  have hI : integerDigits value = [] := by
    apply List.eq_nil_iff_forall_not_mem.mpr
    intro c hc
    have h1 := integerDigits_isDigit value c hc
    have h2 : c ∈ value :=
      (List.mem_filter.mp (List.takeWhile_subset _ hc)).1
    rw [h c h2] at h1
    exact Bool.noConfusion h1
  have hF : fractionDigits value = [] := by
    apply List.eq_nil_iff_forall_not_mem.mpr
    intro c hc
    have h1 := fractionDigits_isDigit value c hc
    have h2 : c ∈ value :=
      (List.mem_filter.mp ((List.dropWhile_sublist _).subset (List.mem_filter.mp hc).1)).1
    rw [h c h2] at h1
    exact Bool.noConfusion h1
  simp [hI, hF]

/-- C6: on every input string without a digit character (the empty string, `"abc"`, a run of
`'.'`, ...) `formatCurrency` returns exactly `"0.00"`. -/
theorem formatCurrency_no_digit (value : List Char) (h : ∀ c ∈ value, c.isDigit = false) :
    formatCurrency value = "0.00".toList :=
  formatCurrency_of_no_digit value h

theorem formatCurrency_no_digit_witness :
    formatCurrency "abc".toList = "0.00".toList ∧ formatCurrency "...".toList = "0.00".toList ∧
      formatCurrency [] = "0.00".toList :=
  ⟨formatCurrency_no_digit "abc".toList (by decide),
    formatCurrency_no_digit "...".toList (by decide),
    formatCurrency_no_digit [] (by decide)⟩

/-! ## Dots after the first one -/

theorem stripNonNumeric_cons_dot (t : List Char) :
    stripNonNumeric ('.' :: t) = '.' :: stripNonNumeric t := by
  simp [stripNonNumeric, List.filter_cons]

theorem stripNonNumeric_cons_digit (c : Char) (t : List Char) (h : c.isDigit = true) :
    stripNonNumeric (c :: t) = c :: stripNonNumeric t := by
  simp [stripNonNumeric, List.filter_cons, h]

theorem stripNonNumeric_cons_other (c : Char) (t : List Char) (h : c.isDigit = false)
    (hd : c ≠ '.') : stripNonNumeric (c :: t) = stripNonNumeric t := by
  simp [stripNonNumeric, List.filter_cons, h, hd]

theorem isDigit_ne_dot (c : Char) (h : c.isDigit = true) : c ≠ '.' := by
  rintro rfl
  exact absurd h (by decide)

theorem filter_isDigit_strip_filter (t : List Char) :
    (stripNonNumeric (t.filter (fun x => x != '.'))).filter Char.isDigit =
      (stripNonNumeric t).filter Char.isDigit := by
  unfold stripNonNumeric
  simp only [List.filter_filter]
  apply List.filter_congr
  intro c _
  by_cases h : c.isDigit = true
  · simp [h, isDigit_ne_dot c h]
  · simp [h]

theorem currencyBuffer_dropLaterDots (value : List Char) :
    integerDigits (dropLaterDots value) = integerDigits value ∧
    fractionDigits (dropLaterDots value) = fractionDigits value ∧
    ('.' ∈ stripNonNumeric (dropLaterDots value) ↔ '.' ∈ stripNonNumeric value) := by
  induction value with
  | nil => simp [dropLaterDots]
  | cons c t ih =>
    by_cases hc : c = '.'
    · subst hc
      simp only [dropLaterDots, if_true, integerDigits, fractionDigits, stripNonNumeric_cons_dot]
      refine ⟨by simp, ?_, by simp⟩
      simp only [List.dropWhile_cons, bne_self_eq_false, Bool.false_eq_true, if_false,
        List.filter_cons, show Char.isDigit '.' = false from by decide]
      exact filter_isDigit_strip_filter t
    · simp only [dropLaterDots, hc, if_false]
      by_cases hd : c.isDigit = true
      · obtain ⟨h1, h2, h3⟩ := ih
        unfold integerDigits fractionDigits at *
        rw [stripNonNumeric_cons_digit c _ hd, stripNonNumeric_cons_digit c _ hd]
        simp [hc, h1, h2, h3]
      · have hd' : c.isDigit = false := by simpa using hd
        unfold integerDigits fractionDigits at *
        rw [stripNonNumeric_cons_other c _ hd' hc, stripNonNumeric_cons_other c _ hd' hc]
        exact ih

theorem dropLaterDots_example :
    dropLaterDots "1.2.3".toList = "1.23".toList ∧
      formatCurrency "1.2.3".toList = "1.23".toList := by
  decide

/-- C10: only the first `'.'` is the decimal separator: `formatCurrency` returns the same
result on a string and on that string with every `'.'` after the first one removed. -/
theorem formatCurrency_dropLaterDots (value : List Char) :
    formatCurrency (dropLaterDots value) = formatCurrency value := by
  obtain ⟨h1, h2, h3⟩ := currencyBuffer_dropLaterDots value
  have hb : currencyBuffer (dropLaterDots value) = currencyBuffer value := by
    rw [currencyBuffer_eq, currencyBuffer_eq, h1, h2]
    simp only [h3]
  unfold formatCurrency
  rw [hb]

/-! ## The shape of the result -/

theorem toDouble_lt (N D : Nat) (hD : 0 < D) (h : N < D * 10 ^ 20) :
    ∃ num den, toDouble N D = JSNumber.finite num den ∧ ¬ 10 ^ 21 * den ≤ num := by
  unfold toDouble
  by_cases hbig : D * 2 ^ 52 ≤ N
  · rw [if_pos hbig]
    simp only
    generalize hp : floorLog2 (N / D) (N / D) - 52 = p
    have hND : 0 < N / D := by
      apply Nat.div_pos _ hD
      calc D ≤ D * 2 ^ 52 := Nat.le_mul_of_pos_right D (by positivity)
        _ ≤ N := hbig
    have h1 : 2 ^ p ≤ N / D := by
      calc 2 ^ p ≤ 2 ^ floorLog2 (N / D) (N / D) :=
            Nat.pow_le_pow_right (by norm_num) (by omega)
        _ ≤ N / D := floorLog2_pow_le _ _ hND (le_refl _)
    have h2 : D * 2 ^ p ≤ N := by
      calc D * 2 ^ p ≤ D * (N / D) := Nat.mul_le_mul_left D h1
        _ ≤ N := Nat.mul_div_le N D
    have hDp : 0 < D * 2 ^ p := by positivity
    obtain ⟨hb, -⟩ := roundTiesToEven_bounds N (D * 2 ^ p) hDp
    generalize roundTiesToEven N (D * 2 ^ p) = M at *
    have h3 : 2 * (M * 2 ^ p * D) ≤ 3 * N := by
      have : M * 2 ^ p * D = M * (D * 2 ^ p) := by ring
      rw [this]
      omega
    have h4 : M * 2 ^ p < 10 ^ 21 := by
      by_contra hcon
      have h5 : 10 ^ 21 * D ≤ M * 2 ^ p * D := Nat.mul_le_mul_right D (not_lt.mp hcon)
      have h6 : D * 10 ^ 20 = 10 ^ 20 * D := by ring
      rw [h6] at h
      generalize M * 2 ^ p * D = X at *
      norm_num at h h5
      omega
    have h7 : ¬ 2 ^ 1024 ≤ M * 2 ^ p := by
      have : (10 : Nat) ^ 21 ≤ 2 ^ 1024 := by norm_num
      omega
    rw [if_neg h7]
    exact ⟨_, _, rfl, by omega⟩
  · rw [if_neg hbig]
    simp only
    generalize 1074 - (floorLog2 (N * 2 ^ 1074 / D) (N * 2 ^ 1074 / D) - 52) = j
    refine ⟨_, _, rfl, ?_⟩
    obtain ⟨hb, -⟩ := roundTiesToEven_bounds (N * 2 ^ j) D hD
    generalize roundTiesToEven (N * 2 ^ j) D = M at *
    intro hcon
    have h1 : N * 2 ^ j < D * 2 ^ 52 * 2 ^ j :=
      Nat.mul_lt_mul_of_pos_right (not_le.mp hbig) (by positivity)
    have h2 : 10 ^ 21 * 2 ^ j * D ≤ M * D := Nat.mul_le_mul_right D hcon
    have h3 : D * 2 ^ 52 * 2 ^ j = 2 ^ 52 * (2 ^ j * D) := by ring
    have h4 : 10 ^ 21 * 2 ^ j * D = 10 ^ 21 * (2 ^ j * D) := by ring
    have h5 : D ≤ 2 ^ j * D := Nat.le_mul_of_pos_left D (by positivity)
    rw [h3] at h1
    rw [h4] at h2
    generalize 2 ^ j * D = QD at *
    generalize M * D = MD at *
    generalize N * 2 ^ j = NQ at *
    norm_num at h1 h2
    omega

theorem currencyShape_fixed (n : Nat) :
    CurrencyShape (decimalDigits (n / 100) ++
      ['.', Nat.digitChar (n % 100 / 10), Nat.digitChar (n % 10)]) :=
  ⟨_, _, _, rfl, decimalDigits_ne_nil _, decimalDigits_isDigit _,
    digitChar_isDigit _ (by omega), digitChar_isDigit _ (by omega)⟩

theorem currencyShape_of_length (value : List Char)
    (hlen : (integerDigits value).length ≤ 20) : CurrencyShape (formatCurrency value) := by
  have hi := integerDigits_isDigit value
  have hf : ∀ c ∈ (fractionDigits value).take 2, c.isDigit = true :=
    fun c hc => fractionDigits_isDigit value c (List.mem_of_mem_take hc)
  have hparse := parseFloat_currencyBuffer value
  by_cases hnan : integerDigits value = [] ∧ (fractionDigits value).take 2 = []
  · rw [if_pos hnan] at hparse
    rw [formatCurrency_of_nan value hparse]
    exact ⟨['0'], '0', '0', rfl, by simp, by decide, by decide, by decide⟩
  · rw [if_neg hnan, digitsValue_append] at hparse
    have hI : digitsValue (integerDigits value) < 10 ^ 20 :=
      lt_of_lt_of_le (digitsValue_lt _ hi) (Nat.pow_le_pow_right (by norm_num) hlen)
    have hF := digitsValue_lt _ hf
    generalize (fractionDigits value).take 2 = F at *
    generalize digitsValue (integerDigits value) = vI at *
    have hlt : vI * 10 ^ F.length + digitsValue F < 10 ^ F.length * 10 ^ 20 := by
      have : (vI + 1) * 10 ^ F.length ≤ 10 ^ 20 * 10 ^ F.length :=
        Nat.mul_le_mul_right _ hI
      have e1 : (vI + 1) * 10 ^ F.length = vI * 10 ^ F.length + 10 ^ F.length := by ring
      have e2 : 10 ^ F.length * 10 ^ 20 = 10 ^ 20 * 10 ^ F.length := by ring
      rw [e2]
      omega
    obtain ⟨num, den, hx, hsmall⟩ := toDouble_lt _ _ (by positivity) hlt
    rw [formatCurrency_of_finite value num den (hparse.trans hx) hsmall]
    exact currencyShape_fixed _

/-- C4 at a failing input: on the text `1` followed by twenty-one `0` the Number handed to
`toFixed(2)` is `10 ^ 21`, from which on `toFixed` answers in exponent notation, and the result
`"1e+21"` has not the shape `^\d+\.\d{2}$`. -/
theorem formatCurrency_exponent_result :
    formatCurrency "1000000000000000000000".toList = "1e+21".toList ∧
      ¬ CurrencyShape (formatCurrency "1000000000000000000000".toList) := by
  have h : formatCurrency "1000000000000000000000".toList = "1e+21".toList := by decide
  refine ⟨h, ?_⟩
  rw [h]
  rintro ⟨ds, a, b, heq, -⟩
  have : '.' ∈ "1e+21".toList := by
    rw [heq]
    simp
  exact absurd this (by decide)

/-! ## The shape of a converted Number -/

theorem floorLog2_eq (n e : Nat) (h1 : 2 ^ e ≤ n) (h2 : n < 2 ^ (e + 1)) :
    floorLog2 n n = e := by
  have hle := floorLog2_le n n e h2
  have hlt := lt_floorLog2_pow n n (le_refl _)
  have : 2 ^ e < 2 ^ (floorLog2 n n + 1) := lt_of_le_of_lt h1 hlt
  have := (Nat.pow_lt_pow_iff_right (by norm_num : 1 < 2)).mp this
  omega

theorem roundTiesToEven_mul (k D : Nat) (hD : 0 < D) : roundTiesToEven (k * D) D = k := by
  unfold roundTiesToEven
  have h1 : k * D / D = k := Nat.mul_div_cancel k hD
  have h2 : k * D % D = 0 := Nat.mul_mod_left k D
  simp [h1, h2, hD]

theorem roundTiesToEven_eq_of_near (N D k : Nat) (h1 : 2 * N < 2 * (k * D) + D)
    (h2 : 2 * (k * D) < 2 * N + D) : roundTiesToEven N D = k := by
  have hD : 0 < D := by omega
  obtain ⟨hb1, hb2⟩ := roundTiesToEven_bounds N D hD
  generalize roundTiesToEven N D = M at *
  by_contra hne
  rcases Nat.lt_or_gt_of_ne hne with hlt | hgt
  · have : (M + 1) * D ≤ k * D := Nat.mul_le_mul_right D hlt
    have e : (M + 1) * D = M * D + D := by ring
    omega
  · have : (k + 1) * D ≤ M * D := Nat.mul_le_mul_right D hgt
    have e : (k + 1) * D = k * D + D := by ring
    omega

theorem le_roundTiesToEven (N D k : Nat) (hD : 0 < D) (h : k * D ≤ N) :
    k ≤ roundTiesToEven N D := by
  have hq : k ≤ N / D := (Nat.le_div_iff_mul_le hD).mpr h
  unfold roundTiesToEven
  simp only
  split_ifs <;> omega

theorem roundTiesToEven_le (N D k : Nat) (hD : 0 < D) (h : N ≤ k * D) :
    roundTiesToEven N D ≤ k := by
  have hq : N / D ≤ k := by
    calc N / D ≤ k * D / D := Nat.div_le_div_right h
      _ = k := Nat.mul_div_cancel k hD
  have hmod := Nat.div_add_mod N D
  unfold roundTiesToEven
  simp only
  have key : 0 < N % D → N / D + 1 ≤ k := by
    intro hr
    by_contra hcon
    have hk : k = N / D := by omega
    rw [hk] at h
    have : N / D * D = D * (N / D) := by ring
    omega
  split_ifs <;> omega

theorem toDouble_large (N D : Nat) (hD : 0 < D) (h : D * 2 ^ 52 ≤ N) :
    ∃ M p, toDouble N D =
        (if 2 ^ 1024 ≤ M * 2 ^ p then JSNumber.infinity else JSNumber.finite (M * 2 ^ p) 1) ∧
      2 ^ 52 ≤ M ∧ M ≤ 2 ^ 53 := by
  have hND : 2 ^ 52 ≤ N / D := (Nat.le_div_iff_mul_le hD).mpr (by rw [Nat.mul_comm]; exact h)
  have hpos : 0 < N / D := lt_of_lt_of_le (by positivity) hND
  have hlo := floorLog2_pow_le (N / D) (N / D) hpos (le_refl _)
  have hhi := lt_floorLog2_pow (N / D) (N / D) (le_refl _)
  generalize he : floorLog2 (N / D) (N / D) = e at *
  have he52 : 52 ≤ e := by
    by_contra hcon
    have : 2 ^ (e + 1) ≤ 2 ^ 52 := Nat.pow_le_pow_right (by norm_num) (by omega)
    omega
  refine ⟨roundTiesToEven N (D * 2 ^ (e - 52)), e - 52, ?_, ?_, ?_⟩
  · unfold toDouble
    rw [if_pos h]
    simp only [he]
  · apply le_roundTiesToEven _ _ _ (by positivity)
    have h1 : 2 ^ e * D ≤ N := (Nat.le_div_iff_mul_le hD).mp hlo
    have h2 : 2 ^ 52 * (D * 2 ^ (e - 52)) = 2 ^ e * D := by
      have : 2 ^ e = 2 ^ 52 * 2 ^ (e - 52) := by rw [← pow_add]; congr 1; omega
      rw [this]; ring
    rw [h2]
    exact h1
  · apply roundTiesToEven_le _ _ _ (by positivity)
    have h1 : N < 2 ^ (e + 1) * D := (Nat.div_lt_iff_lt_mul hD).mp hhi
    have h2 : 2 ^ 53 * (D * 2 ^ (e - 52)) = 2 ^ (e + 1) * D := by
      have : 2 ^ (e + 1) = 2 ^ 53 * 2 ^ (e - 52) := by rw [← pow_add]; congr 1; omega
      rw [this]; ring
    rw [h2]
    exact le_of_lt h1

theorem toDouble_medium (N D : Nat) (hD : 0 < D) (h : ¬ D * 2 ^ 52 ≤ N) :
    ∃ M j, toDouble N D = JSNumber.finite M (2 ^ j) ∧ 1 ≤ j ∧ M ≤ 2 ^ 53 ∧
      (j < 1074 → 2 ^ 52 ≤ M) := by
  have hw : N * 2 ^ 1074 / D < 2 ^ (1125 + 1) := by
    rw [Nat.div_lt_iff_lt_mul hD]
    calc N * 2 ^ 1074 < D * 2 ^ 52 * 2 ^ 1074 :=
          Nat.mul_lt_mul_of_pos_right (not_le.mp h) (by positivity)
      _ = 2 ^ (1125 + 1) * D := by ring
  have hL := floorLog2_le (N * 2 ^ 1074 / D) _ 1125 hw
  have hhi := lt_floorLog2_pow (N * 2 ^ 1074 / D) (N * 2 ^ 1074 / D) (le_refl _)
  have hlo : 0 < N * 2 ^ 1074 / D →
      2 ^ floorLog2 (N * 2 ^ 1074 / D) (N * 2 ^ 1074 / D) ≤ N * 2 ^ 1074 / D :=
    fun hp => floorLog2_pow_le _ _ hp (le_refl _)
  have hzero : N * 2 ^ 1074 / D = 0 → floorLog2 (N * 2 ^ 1074 / D) (N * 2 ^ 1074 / D) = 0 := by
    intro h0
    rw [h0]
    rfl
  generalize hLdef : floorLog2 (N * 2 ^ 1074 / D) (N * 2 ^ 1074 / D) = L at *
  rw [Nat.div_lt_iff_lt_mul hD] at hhi
  refine ⟨roundTiesToEven (N * 2 ^ (1074 - (L - 52))) D, 1074 - (L - 52), ?_, by omega, ?_, ?_⟩
  · unfold toDouble
    rw [if_neg h]
    simp only [hLdef]
  · apply roundTiesToEven_le _ _ _ hD
    by_cases hL52 : 52 ≤ L
    · have e1 : (2 : Nat) ^ 1074 = 2 ^ (1074 - (L - 52)) * 2 ^ (L - 52) := by
        rw [← pow_add]; congr 1; omega
      have e2 : (2 : Nat) ^ (L + 1) = 2 ^ 53 * 2 ^ (L - 52) := by
        rw [← pow_add]; congr 1; omega
      rw [e1, e2] at hhi
      have h3 : N * 2 ^ (1074 - (L - 52)) * 2 ^ (L - 52) < 2 ^ 53 * D * 2 ^ (L - 52) := by
        calc N * 2 ^ (1074 - (L - 52)) * 2 ^ (L - 52)
            = N * (2 ^ (1074 - (L - 52)) * 2 ^ (L - 52)) := by ring
          _ < 2 ^ 53 * 2 ^ (L - 52) * D := hhi
          _ = 2 ^ 53 * D * 2 ^ (L - 52) := by ring
      exact le_of_lt (Nat.lt_of_mul_lt_mul_right h3)
    · have e0 : L - 52 = 0 := by omega
      rw [e0]
      have h4 : (2 : Nat) ^ (L + 1) ≤ 2 ^ 53 := Nat.pow_le_pow_right (by norm_num) (by omega)
      calc N * 2 ^ (1074 - 0) = N * 2 ^ 1074 := by simp
        _ ≤ 2 ^ (L + 1) * D := le_of_lt hhi
        _ ≤ 2 ^ 53 * D := Nat.mul_le_mul_right D h4
  · intro hj
    have hL52 : 52 < L := by omega
    have hwpos : 0 < N * 2 ^ 1074 / D := by
      by_contra hcon
      have := hzero (Nat.eq_zero_of_not_pos hcon)
      omega
    have h1 : 2 ^ L * D ≤ N * 2 ^ 1074 := (Nat.le_div_iff_mul_le hD).mp (hlo hwpos)
    apply le_roundTiesToEven _ _ _ hD
    have e1 : (2 : Nat) ^ 1074 = 2 ^ (1074 - (L - 52)) * 2 ^ (L - 52) := by
      rw [← pow_add]; congr 1; omega
    have e2 : (2 : Nat) ^ L = 2 ^ 52 * 2 ^ (L - 52) := by
      rw [← pow_add]; congr 1; omega
    rw [e1, e2] at h1
    have h3 : 2 ^ 52 * D * 2 ^ (L - 52) ≤ N * 2 ^ (1074 - (L - 52)) * 2 ^ (L - 52) := by
      calc 2 ^ 52 * D * 2 ^ (L - 52) = 2 ^ 52 * 2 ^ (L - 52) * D := by ring
        _ ≤ N * (2 ^ (1074 - (L - 52)) * 2 ^ (L - 52)) := h1
        _ = N * 2 ^ (1074 - (L - 52)) * 2 ^ (L - 52) := by ring
    exact Nat.le_of_mul_le_mul_right h3 (by positivity)

/-! ## Converting the result of `toFixed(2)` back to a Number -/

theorem toDouble_representable (m q c : Nat) (hc : 0 < c) (h1 : 2 ^ 52 ≤ m) (h2 : m ≤ 2 ^ 53)
    (h3 : ¬ 2 ^ 1024 ≤ m * 2 ^ q) :
    toDouble (c * (m * 2 ^ q)) c = JSNumber.finite (m * 2 ^ q) 1 := by
  have hq : 0 < 2 ^ q := by positivity
  have hbig : c * 2 ^ 52 ≤ c * (m * 2 ^ q) := by
    apply Nat.mul_le_mul_left
    calc 2 ^ 52 ≤ m := h1
      _ ≤ m * 2 ^ q := Nat.le_mul_of_pos_right m hq
  unfold toDouble
  rw [if_pos hbig, Nat.mul_div_cancel_left _ hc]
  simp only
  rcases Nat.lt_or_ge m (2 ^ 53) with hlt | hge
  · have he : floorLog2 (m * 2 ^ q) (m * 2 ^ q) = 52 + q := by
      apply floorLog2_eq
      · rw [pow_add]
        exact Nat.mul_le_mul_right _ h1
      · have : (2 : Nat) ^ (52 + q + 1) = 2 ^ 53 * 2 ^ q := by
          rw [← pow_add]; congr 1; omega
        rw [this]
        exact Nat.mul_lt_mul_of_pos_right hlt hq
    have hp : 52 + q - 52 = q := by omega
    rw [he, hp]
    have hr : roundTiesToEven (c * (m * 2 ^ q)) (c * 2 ^ q) = m := by
      have : c * (m * 2 ^ q) = m * (c * 2 ^ q) := by ring
      rw [this]
      exact roundTiesToEven_mul m _ (by positivity)
    rw [hr, if_neg h3]
  · have hm : m = 2 ^ 53 := le_antisymm h2 hge
    subst hm
    have he : floorLog2 (2 ^ 53 * 2 ^ q) (2 ^ 53 * 2 ^ q) = 53 + q := by
      apply floorLog2_eq
      · rw [pow_add]
      · rw [← pow_add]
        exact Nat.pow_lt_pow_right (by norm_num) (by omega)
    have hp : 53 + q - 52 = q + 1 := by omega
    rw [he, hp]
    have hr : roundTiesToEven (c * (2 ^ 53 * 2 ^ q)) (c * 2 ^ (q + 1)) = 2 ^ 52 := by
      have : c * (2 ^ 53 * 2 ^ q) = 2 ^ 52 * (c * 2 ^ (q + 1)) := by
        rw [pow_succ]; ring
      rw [this]
      exact roundTiesToEven_mul _ _ (by positivity)
    have hv : 2 ^ 52 * 2 ^ (q + 1) = 2 ^ 53 * 2 ^ q := by
      rw [pow_succ]; ring
    rw [hr, hv, if_neg h3]

theorem toDouble_near (n M j : Nat) (hj1 : 1 ≤ j) (hj2 : j ≤ 1074)
    (hlo : 100 * 2 ^ 52 ≤ n * 2 ^ j) (hhi : n * 2 ^ j < 100 * 2 ^ 53)
    (h1 : 2 * (n * 2 ^ j) < 2 * (M * 100) + 100) (h2 : 2 * (M * 100) < 2 * (n * 2 ^ j) + 100) :
    toDouble n 100 = JSNumber.finite M (2 ^ j) := by
  have hnot : ¬ 100 * 2 ^ 52 ≤ n := by
    intro hcon
    have : 2 ^ 1 ≤ 2 ^ j := Nat.pow_le_pow_right (by norm_num) hj1
    have : n * 2 ^ 1 ≤ n * 2 ^ j := Nat.mul_le_mul_left n this
    omega
  have e1 : (2 : Nat) ^ 1074 = 2 ^ j * 2 ^ (1074 - j) := by
    rw [← pow_add]; congr 1; omega
  have hL : floorLog2 (n * 2 ^ 1074 / 100) (n * 2 ^ 1074 / 100) = 1126 - j := by
    apply floorLog2_eq
    · rw [Nat.le_div_iff_mul_le (by norm_num)]
      have e2 : (2 : Nat) ^ (1126 - j) = 2 ^ 52 * 2 ^ (1074 - j) := by
        rw [← pow_add]; congr 1; omega
      rw [e1, e2]
      calc 2 ^ 52 * 2 ^ (1074 - j) * 100 = 100 * 2 ^ 52 * 2 ^ (1074 - j) := by ring
        _ ≤ n * 2 ^ j * 2 ^ (1074 - j) := Nat.mul_le_mul_right _ hlo
        _ = n * (2 ^ j * 2 ^ (1074 - j)) := by ring
    · rw [Nat.div_lt_iff_lt_mul (by norm_num)]
      have e2 : (2 : Nat) ^ (1126 - j + 1) = 2 ^ 53 * 2 ^ (1074 - j) := by
        rw [← pow_add]; congr 1; omega
      rw [e1, e2]
      calc n * (2 ^ j * 2 ^ (1074 - j)) = n * 2 ^ j * 2 ^ (1074 - j) := by ring
        _ < 100 * 2 ^ 53 * 2 ^ (1074 - j) :=
            Nat.mul_lt_mul_of_pos_right hhi (by positivity)
        _ = 2 ^ 53 * 2 ^ (1074 - j) * 100 := by ring
  have hj : 1074 - (1126 - j - 52) = j := by omega
  unfold toDouble
  rw [if_neg hnot]
  simp only [hL, hj]
  rw [roundTiesToEven_eq_of_near (n * 2 ^ j) 100 M h1 h2]

theorem toDouble_small_fixed (N D k : Nat) (hD : 0 < D) (hlt : N < D * 2 ^ 46)
    (hk : 100 * N = k * D) :
    ∃ M j, toDouble N D = JSNumber.finite M (2 ^ j) ∧ ¬ 10 ^ 21 * 2 ^ j ≤ M ∧
      nearestHundredths M (2 ^ j) = k := by
  obtain ⟨M, j, hM, hj, hb1, hb2⟩ := toDouble_small N D hD hlt
  have hQ : 128 ≤ 2 ^ j := by
    calc 128 = 2 ^ 7 := by norm_num
      _ ≤ 2 ^ j := Nat.pow_le_pow_right (by norm_num) hj
  refine ⟨M, j, hM, ?_, fixed_of_bounds N D M (2 ^ j) k hD hQ hk hb1 hb2⟩
  intro hbig
  have h1 : 10 ^ 21 * 2 ^ j * D ≤ M * D := Nat.mul_le_mul_right D hbig
  have h2 : N * 2 ^ j < D * 2 ^ 46 * 2 ^ j := Nat.mul_lt_mul_of_pos_right hlt (by positivity)
  have h3 : D * 2 ^ 46 * 2 ^ j = 2 ^ 46 * (2 ^ j * D) := by ring
  have h4 : 10 ^ 21 * 2 ^ j * D = 10 ^ 21 * (2 ^ j * D) := by ring
  have h5 : 128 * D ≤ 2 ^ j * D := Nat.mul_le_mul_right D hQ
  rw [h3] at h2
  rw [h4] at h1
  generalize 2 ^ j * D = QD at *
  generalize M * D = MD at *
  generalize N * 2 ^ j = NQ at *
  norm_num at h1 h2
  omega

theorem nearestHundredths_integer (X : Nat) : nearestHundredths X 1 = 100 * X := by
  unfold nearestHundredths
  omega

theorem nearestHundredths_spec (num den : Nat) (hden : 0 < den) :
    nearestHundredths num den * (2 * den) ≤ 200 * num + den ∧
      200 * num + den < (nearestHundredths num den + 1) * (2 * den) := by
  unfold nearestHundredths
  have e : 2 * 10 ^ 2 * num + den = 200 * num + den := by norm_num
  rw [e]
  have h1 := Nat.div_mul_le_self (200 * num + den) (2 * den)
  have h2 : (200 * num + den) / (2 * den) < (200 * num + den) / (2 * den) + 1 :=
    Nat.lt_succ_self _
  rw [Nat.div_lt_iff_lt_mul (by omega : 0 < 2 * den)] at h2
  exact ⟨h1, h2⟩

theorem reparse_medium_top (j : Nat) (hj1 : 1 ≤ j) (hj7 : j ≤ 7) :
    ∃ num den, toDouble (nearestHundredths (2 ^ 53) (2 ^ j)) 100 = JSNumber.finite num den ∧
      ¬ 10 ^ 21 * den ≤ num ∧
      nearestHundredths num den = nearestHundredths (2 ^ 53) (2 ^ j) := by
  interval_cases j
  · exact ⟨2 ^ 52, 1, by decide, by decide, by decide⟩
  · exact ⟨2 ^ 52, 2 ^ 1, by decide, by decide, by decide⟩
  · exact ⟨2 ^ 52, 2 ^ 2, by decide, by decide, by decide⟩
  · exact ⟨2 ^ 52, 2 ^ 3, by decide, by decide, by decide⟩
  · exact ⟨2 ^ 52, 2 ^ 4, by decide, by decide, by decide⟩
  · exact ⟨2 ^ 52, 2 ^ 5, by decide, by decide, by decide⟩
  · exact ⟨2 ^ 52, 2 ^ 6, by decide, by decide, by decide⟩

theorem reparse_medium_bottom (j : Nat) (hj1 : 1 ≤ j) (hj6 : j ≤ 6) :
    ∃ num den, toDouble (nearestHundredths (2 ^ 52) (2 ^ j)) 100 = JSNumber.finite num den ∧
      ¬ 10 ^ 21 * den ≤ num ∧
      nearestHundredths num den = nearestHundredths (2 ^ 52) (2 ^ j) := by
  interval_cases j
  · exact ⟨2 ^ 52, 2 ^ 1, by decide, by decide, by decide⟩
  · exact ⟨2 ^ 52, 2 ^ 2, by decide, by decide, by decide⟩
  · exact ⟨2 ^ 52, 2 ^ 3, by decide, by decide, by decide⟩
  · exact ⟨2 ^ 52, 2 ^ 4, by decide, by decide, by decide⟩
  · exact ⟨2 ^ 52, 2 ^ 5, by decide, by decide, by decide⟩
  · exact ⟨2 ^ 52, 2 ^ 6, by decide, by decide, by decide⟩

/-- Converting the two-decimal rendering of a Number below `10 ^ 21` back to a Number and
rendering it again gives the same integer of hundredths. -/
theorem reparse_fixed (N D num den : Nat) (hD : 0 < D)
    (hx : toDouble N D = JSNumber.finite num den) (hsmall : ¬ 10 ^ 21 * den ≤ num) :
    ∃ num1 den1, toDouble (nearestHundredths num den) 100 = JSNumber.finite num1 den1 ∧
      ¬ 10 ^ 21 * den1 ≤ num1 ∧
      nearestHundredths num1 den1 = nearestHundredths num den := by
  rcases Nat.lt_or_ge (nearestHundredths num den) (100 * 2 ^ 46) with hn | hn
  · obtain ⟨M, j, h1, h2, h3⟩ :=
      toDouble_small_fixed (nearestHundredths num den) 100 (nearestHundredths num den)
        (by norm_num) hn (Nat.mul_comm _ _)
    exact ⟨M, 2 ^ j, h1, h2, h3⟩
  · by_cases hbig : D * 2 ^ 52 ≤ N
    · obtain ⟨M, p, hM, hM1, hM2⟩ := toDouble_large N D hD hbig
      rw [hx] at hM
      by_cases hov : 2 ^ 1024 ≤ M * 2 ^ p
      · rw [if_pos hov] at hM
        exact JSNumber.noConfusion hM
      · rw [if_neg hov] at hM
        injection hM with e1 e2
        subst e1 e2
        rw [nearestHundredths_integer]
        exact ⟨M * 2 ^ p, 1, toDouble_representable M p 100 (by norm_num) hM1 hM2 hov, hsmall,
          nearestHundredths_integer _⟩
    · obtain ⟨M, j, hM, hj1, hM2, hM1⟩ := toDouble_medium N D hD hbig
      rw [hx] at hM
      injection hM with e1 e2
      subst e1 e2
      obtain ⟨hs1, hs2⟩ := nearestHundredths_spec num (2 ^ j) (by positivity)
      rcases Nat.lt_or_ge num (2 ^ 53) with hlt | hge
      · -- below the top of the binade: `j ≤ 6`
        have hj6 : j ≤ 6 := by
          by_contra hcon
          have e : (2 : Nat) ^ j = 128 * 2 ^ (j - 7) := by
            have : (128 : Nat) = 2 ^ 7 := by norm_num
            rw [this, ← pow_add]; congr 1; omega
          have ht : 0 < 2 ^ (j - 7) := by positivity
          rw [e] at hs1
          have h5 : 100 * 2 ^ 46 * (2 * (128 * 2 ^ (j - 7))) ≤
              nearestHundredths num (128 * 2 ^ (j - 7)) * (2 * (128 * 2 ^ (j - 7))) := by
            rw [e] at hn
            exact Nat.mul_le_mul_right _ hn
          generalize 2 ^ (j - 7) = t at *
          generalize nearestHundredths num (128 * t) * (2 * (128 * t)) = P at *
          norm_num at hlt h5
          omega
        have h52 : 2 ^ 52 ≤ num := hM1 (by omega)
        rcases Nat.eq_or_lt_of_le h52 with heq | hgt
        · rw [← heq]
          exact reparse_medium_bottom j hj1 hj6
        · have hQ1 : 2 ^ 1 ≤ 2 ^ j := Nat.pow_le_pow_right (by norm_num) hj1
          have hQ2 : 2 ^ j ≤ 2 ^ 6 := Nat.pow_le_pow_right (by norm_num) hj6
          have e1 : nearestHundredths num (2 ^ j) * (2 * 2 ^ j) =
              2 * (nearestHundredths num (2 ^ j) * 2 ^ j) := by ring
          have e2 : (nearestHundredths num (2 ^ j) + 1) * (2 * 2 ^ j) =
              2 * (nearestHundredths num (2 ^ j) * 2 ^ j) + 2 * 2 ^ j := by ring
          rw [e1] at hs1
          rw [e2] at hs2
          refine ⟨num, 2 ^ j, ?_, hsmall, rfl⟩
          apply toDouble_near _ _ _ hj1 (by omega)
          all_goals
            generalize nearestHundredths num (2 ^ j) * 2 ^ j = P at *
            generalize 2 ^ j = Q at *
            norm_num at hQ1 hQ2 hlt hgt ⊢
            omega
      · have heq : num = 2 ^ 53 := le_antisymm hM2 hge
        subst heq
        have hj7 : j ≤ 7 := by
          by_contra hcon
          have e : (2 : Nat) ^ j = 256 * 2 ^ (j - 8) := by
            have : (256 : Nat) = 2 ^ 8 := by norm_num
            rw [this, ← pow_add]; congr 1; omega
          have ht : 0 < 2 ^ (j - 8) := by positivity
          rw [e] at hs1
          have h5 : 100 * 2 ^ 46 * (2 * (256 * 2 ^ (j - 8))) ≤
              nearestHundredths (2 ^ 53) (256 * 2 ^ (j - 8)) * (2 * (256 * 2 ^ (j - 8))) := by
            rw [e] at hn
            exact Nat.mul_le_mul_right _ hn
          generalize 2 ^ (j - 8) = t at *
          generalize nearestHundredths (2 ^ 53) (256 * t) * (2 * (256 * t)) = P at *
          norm_num at h5 hs1
          omega
        exact reparse_medium_top j hj1 hj7

/-! ## Idempotence -/

theorem parts_of_shape (ds : List Char) (a b : Char) (hds : ∀ c ∈ ds, c.isDigit = true)
    (ha : a.isDigit = true) (hb : b.isDigit = true) :
    integerDigits (ds ++ ['.', a, b]) = ds ∧ fractionDigits (ds ++ ['.', a, b]) = [a, b] := by
  have hstrip : stripNonNumeric (ds ++ ['.', a, b]) = ds ++ ['.', a, b] := by
    unfold stripNonNumeric
    rw [List.filter_eq_self]
    intro c hc
    simp only [List.mem_append, List.mem_cons, List.mem_singleton] at hc
    rcases hc with h | h | h | h | h
    · simp [hds c h]
    · simp [h]
    · simp [h, ha]
    · simp [h, hb]
    · simp at h
  have hne : ∀ c ∈ ds, (c != '.') = true := by
    intro c hc
    simp [isDigit_ne_dot c (hds c hc)]
  unfold integerDigits fractionDigits
  rw [hstrip, List.takeWhile_append_of_pos hne, List.dropWhile_append_of_pos hne]
  simp [List.takeWhile, List.dropWhile, List.filter, ha, hb]

theorem parseFloat_currencyBuffer_fixed (n : Nat) :
    parseFloat (currencyBuffer (decimalDigits (n / 100) ++
      ['.', Nat.digitChar (n % 100 / 10), Nat.digitChar (n % 10)])) = toDouble n 100 := by
  have h1 : n % 100 / 10 < 10 := by omega
  have h2 : n % 10 < 10 := by omega
  obtain ⟨hI, hF⟩ := parts_of_shape (decimalDigits (n / 100)) _ _ (decimalDigits_isDigit _)
    (digitChar_isDigit _ h1) (digitChar_isDigit _ h2)
  rw [parseFloat_currencyBuffer, hI, hF]
  have hne : ¬ (decimalDigits (n / 100) = [] ∧
      List.take 2 [Nat.digitChar (n % 100 / 10), Nat.digitChar (n % 10)] = []) := by
    simp
  rw [if_neg hne]
  have hv : digitsValue (decimalDigits (n / 100) ++
      List.take 2 [Nat.digitChar (n % 100 / 10), Nat.digitChar (n % 10)]) = n := by
    have : List.take 2 [Nat.digitChar (n % 100 / 10), Nat.digitChar (n % 10)] =
        [Nat.digitChar (n % 100 / 10), Nat.digitChar (n % 10)] := rfl
    rw [this, digitsValue_append, digitsValue_decimalDigits, digitsValue_two,
      digitChar_toNat _ h1, digitChar_toNat _ h2]
    simp only [List.length_cons, List.length_nil]
    omega
  rw [hv]
  rfl

theorem formatCurrency_idempotent_of_finite (value : List Char) (num den : Nat)
    (hx : parseFloat (currencyBuffer value) = JSNumber.finite num den)
    (hsmall : ¬ 10 ^ 21 * den ≤ num) :
    formatCurrency (formatCurrency value) = formatCurrency value := by
  have hparse := parseFloat_currencyBuffer value
  by_cases hnan : integerDigits value = [] ∧ (fractionDigits value).take 2 = []
  · rw [if_pos hnan, hx] at hparse
    exact JSNumber.noConfusion hparse
  · rw [if_neg hnan, hx] at hparse
    obtain ⟨num1, den1, h1, h2, h3⟩ := reparse_fixed _ _ num den (by positivity) hparse.symm hsmall
    have hy := formatCurrency_of_finite value num den hx hsmall
    rw [hy]
    have hre := parseFloat_currencyBuffer_fixed (nearestHundredths num den)
    unfold nearestHundredths at hre h1 h3
    rw [formatCurrency_of_finite _ num1 den1 (hre.trans h1) h2, h3]

theorem mem_numberToStringLarge (X : Nat) : 'e' ∈ numberToStringLarge X := by
  unfold numberToStringLarge
  simp only
  split_ifs <;> simp

theorem not_currencyShape_of_mem (s : List Char) (c : Char) (hc : c ∈ s)
    (h1 : c.isDigit = false) (h2 : c ≠ '.') : ¬ CurrencyShape s := by
  rintro ⟨ds, a, b, rfl, -, hds, ha, hb⟩
  simp only [List.mem_append, List.mem_cons, List.mem_singleton] at hc
  rcases hc with h | h | h | h | h
  · rw [hds c h] at h1; exact Bool.noConfusion h1
  · exact h2 h
  · rw [h, ha] at h1; exact Bool.noConfusion h1
  · rw [h, hb] at h1; exact Bool.noConfusion h1
  · simp at h

theorem formatCurrency_zero : formatCurrency "0.00".toList = "0.00".toList := by decide

theorem formatCurrency_idempotent_of_shape (value : List Char)
    (hshape : CurrencyShape (formatCurrency value)) :
    formatCurrency (formatCurrency value) = formatCurrency value := by
  cases hx : parseFloat (currencyBuffer value) with
  | nan =>
    rw [formatCurrency_of_nan value hx]
    exact formatCurrency_zero
  | infinity =>
    have : formatCurrency value = "Infinity".toList := by
      unfold formatCurrency
      simp only [hx]
      decide
    rw [this] at hshape
    exact absurd hshape
      (not_currencyShape_of_mem _ 'I' (by decide) (by decide) (by decide))
  | finite num den =>
    by_cases hbig : 10 ^ 21 * den ≤ num
    · have hval : formatCurrency value =
          if isNaN (numberToStringLarge (num / den)) = true then "0.00".toList
          else numberToStringLarge (num / den) := by
        unfold formatCurrency
        simp only [hx]
        unfold toFixed
        simp only [hbig, if_true]
      by_cases hn : isNaN (numberToStringLarge (num / den)) = true
      · rw [if_pos hn] at hval
        rw [hval]
        exact formatCurrency_zero
      · rw [if_neg hn] at hval
        rw [hval] at hshape
        exact absurd hshape
          (not_currencyShape_of_mem _ 'e' (mem_numberToStringLarge _) (by decide) (by decide))
    · exact formatCurrency_idempotent_of_finite value num den hx hbig

/-- C5 at a failing input: on the text `1` followed by twenty-one `0` the result is
`"1e+21"`, and `formatCurrency` applied to that result gives `"121.00"`. -/
theorem formatCurrency_exponent_not_idempotent :
    formatCurrency "1000000000000000000000".toList = "1e+21".toList ∧
      formatCurrency (formatCurrency "1000000000000000000000".toList) = "121.00".toList ∧
      formatCurrency (formatCurrency "1000000000000000000000".toList) ≠
        formatCurrency "1000000000000000000000".toList := by
  decide

/-! ## Lemmas on the loop of `formatDatetimeString` -/

theorem formatLoop_result (map : Char → Option (List Char)) (p : List Char) :
    ∀ (result : List Char) (inBrackets : Bool),
      formatLoop map p result inBrackets = result ++ formatLoop map p [] inBrackets := by
  induction p with
  | nil => intro result inBrackets; simp [formatLoop]
  | cons c rest ih =>
    intro result inBrackets
    simp only [formatLoop]
    split_ifs
    · exact ih result true
    · exact ih result false
    · rw [ih (result ++ [c]), ih ([] ++ [c])]; simp
    · cases map c with
      | some v => simp only; rw [ih (result ++ v), ih ([] ++ v)]; simp
      | none => simp only; rw [ih (result ++ [c]), ih ([] ++ [c])]; simp

theorem formatLoop_cons_outside (map : Char → Option (List Char)) (c : Char) (p : List Char)
    (h1 : c ≠ '[') (h2 : c ≠ ']') :
    formatLoop map (c :: p) [] false = (map c).getD [c] ++ formatLoop map p [] false := by
  rw [formatLoop, if_neg h1, if_neg h2, if_neg (by simp)]
  cases map c with
  | some v => simp only; rw [formatLoop_result]; simp
  | none => simp only; rw [formatLoop_result]; simp

theorem formatLoop_cons_inside (map : Char → Option (List Char)) (c : Char) (p : List Char)
    (h1 : c ≠ '[') (h2 : c ≠ ']') :
    formatLoop map (c :: p) [] true = c :: formatLoop map p [] true := by
  rw [formatLoop, if_neg h1, if_neg h2, if_pos rfl, formatLoop_result]
  simp

theorem formatLoop_append_outside (map : Char → Option (List Char)) (a p : List Char)
    (ha : BracketFree a) :
    formatLoop map (a ++ p) [] false = formatLoop map a [] false ++ formatLoop map p [] false := by
  induction a with
  | nil => simp [formatLoop]
  | cons c rest ih =>
    have hc := ha c (by simp)
    have hrest : BracketFree rest := fun x hx => ha x (by simp [hx])
    rw [List.cons_append, formatLoop_cons_outside map c _ hc.1 hc.2,
      formatLoop_cons_outside map c _ hc.1 hc.2, ih hrest, List.append_assoc]

theorem formatLoop_append_inside (map : Char → Option (List Char)) (s p : List Char)
    (hs : BracketFree s) :
    formatLoop map (s ++ p) [] true = s ++ formatLoop map p [] true := by
  induction s with
  | nil => simp
  | cons c rest ih =>
    have hc := hs c (by simp)
    have hrest : BracketFree rest := fun x hx => hs x (by simp [hx])
    rw [List.cons_append, formatLoop_cons_inside map c _ hc.1 hc.2, ih hrest, List.cons_append]

theorem formatLoop_open (map : Char → Option (List Char)) (p : List Char) (b : Bool) :
    formatLoop map ('[' :: p) [] b = formatLoop map p [] true := by
  simp [formatLoop]

theorem formatLoop_close (map : Char → Option (List Char)) (p : List Char) (b : Bool) :
    formatLoop map (']' :: p) [] b = formatLoop map p [] false := by
  simp [formatLoop]

theorem formatLoop_literal_run (map : Char → Option (List Char)) (a s b : List Char)
    (ha : BracketFree a) (hs : BracketFree s) :
    formatLoop map (a ++ ['['] ++ s ++ [']'] ++ b) [] false =
      formatLoop map a [] false ++ s ++ formatLoop map b [] false := by
  have e : a ++ ['['] ++ s ++ [']'] ++ b = a ++ ('[' :: (s ++ (']' :: b))) := by simp
  rw [e, formatLoop_append_outside map a _ ha, formatLoop_open, formatLoop_append_inside map s _ hs,
    formatLoop_close]
  simp

/-- C2: a bracket-delimited literal run is copied verbatim and its brackets are dropped: for
every instant, every bracket-free `a` and `s` and every pattern `b`, the pattern
`a ++ "[" ++ s ++ "]" ++ b` gives the result of `a`, then `s` itself, then the result of `b`. -/
theorem formatDatetimeString_literal_run (newDate : List Char → JSDate)
    (datetime_string a s b : List Char) (ha : BracketFree a) (hs : BracketFree s) :
    formatDatetimeString newDate datetime_string (a ++ ['['] ++ s ++ [']'] ++ b) =
      formatDatetimeString newDate datetime_string a ++ s ++
        formatDatetimeString newDate datetime_string b :=
  formatLoop_literal_run _ a s b ha hs

theorem formatDatetimeString_literal_run_witness :
    formatDatetimeString (fun _ => JSDate.valid ⟨2023, 3, 15, 14, 30, 5⟩) "2023-04-15T14:30:05".toList
      "[Literal] d/m/Y".toList = "Literal 15/04/2023".toList :=
  (formatDatetimeString_literal_run (fun _ => JSDate.valid ⟨2023, 3, 15, 14, 30, 5⟩)
    "2023-04-15T14:30:05".toList [] "Literal".toList " d/m/Y".toList
    (by intro c hc; simp at hc) (by unfold BracketFree; decide)).trans (by decide)

/-- C3: an unmatched `[` makes the rest of the pattern literal: for every instant, valid or
not, and every bracket-free `s`, the pattern `"[" ++ s` gives exactly `s`. -/
theorem formatDatetimeString_unmatched_bracket (newDate : List Char → JSDate)
    (datetime_string s : List Char) (hs : BracketFree s) :
    formatDatetimeString newDate datetime_string ('[' :: s) = s := by
  unfold formatDatetimeString
  simp only
  rw [formatLoop_open]
  have := formatLoop_append_inside (formatMap (newDate datetime_string)) s [] hs
  simpa [formatLoop] using this

theorem formatDatetimeString_unmatched_bracket_witness :
    formatDatetimeString (fun _ => JSDate.invalid) "never".toList "[oops d".toList =
      "oops d".toList :=
  formatDatetimeString_unmatched_bracket (fun _ => JSDate.invalid) "never".toList
    "oops d".toList (by unfold BracketFree; decide)

theorem formatLoop_token (map : Char → Option (List Char)) (a b : List Char) (c : Char)
    (ha : BracketFree a) (h1 : c ≠ '[') (h2 : c ≠ ']') :
    formatLoop map (a ++ c :: b) [] false =
      formatLoop map a [] false ++ (map c).getD [c] ++ formatLoop map b [] false := by
  rw [formatLoop_append_outside map a _ ha, formatLoop_cons_outside map c b h1 h2,
    List.append_assoc]

theorem formatDatetimeString_token (newDate : List Char → JSDate)
    (datetime_string a b : List Char) (c : Char) (v : List Char) (ha : BracketFree a)
    (h1 : c ≠ '[') (h2 : c ≠ ']') (hv : formatMap (newDate datetime_string) c = some v) :
    formatDatetimeString newDate datetime_string (a ++ c :: b) =
      formatDatetimeString newDate datetime_string a ++ v ++
        formatDatetimeString newDate datetime_string b := by
  unfold formatDatetimeString
  simp only
  rw [formatLoop_token _ a b c ha h1 h2, hv]
  rfl

theorem decimalDigits_length_two (v : Nat) (h1 : 10 ≤ v) (h2 : v < 100) :
    (decimalDigits v).length = 2 := by
  rw [decimalDigits_step v h1, decimalDigits_lt_ten (v / 10) (by omega)]
  rfl

theorem two_le_decimalDigits_length (v : Nat) (h1 : 10 ≤ v) : 2 ≤ (decimalDigits v).length := by
  rw [decimalDigits_step v h1]
  have : decimalDigits (v / 10) ≠ [] := by
    by_cases h : v / 10 < 10
    · simp [decimalDigits_lt_ten _ h]
    · rw [decimalDigits_step _ (by omega)]; simp
  have := List.length_pos.mpr this
  simp
  omega

theorem padStart_decimalDigits (v : Nat) :
    padStart (decimalDigits v) 2 '0' = twoDigitText v := by
  unfold padStart twoDigitText
  by_cases h : v < 10
  · simp [h, decimalDigits_lt_ten v h]
  · have := two_le_decimalDigits_length v (by omega)
    simp [h, this]

theorem twoDigitText_length (v : Nat) (h : v < 100) : (twoDigitText v).length = 2 := by
  unfold twoDigitText
  by_cases h1 : v < 10
  · simp [h1, decimalDigits_lt_ten v h1]
  · simp [h1, decimalDigits_length_two v (by omega) h]

/-- C7: numeric tokens of a valid instant, wherever they stand outside brackets: `d`, `m`,
`H`, `i`, `s` render the day of the month, the month counted from 1, the hour, the minute and
the second on exactly two digits with a leading zero below ten; `j`, `n`, `G` render the day,
the month and the hour without padding; `Y` renders the full year; the month rendered lies
between 1 and 12. -/
theorem formatDatetimeString_numeric_tokens (newDate : List Char → JSDate)
    (datetime_string a b : List Char) (f : DateFields)
    (hvalid : newDate datetime_string = JSDate.valid f) (hrange : f.InRange)
    (ha : BracketFree a) :
    (formatDatetimeString newDate datetime_string (a ++ 'd' :: b) =
      formatDatetimeString newDate datetime_string a ++ twoDigitText f.date ++
        formatDatetimeString newDate datetime_string b) ∧
    (formatDatetimeString newDate datetime_string (a ++ 'm' :: b) =
      formatDatetimeString newDate datetime_string a ++ twoDigitText (f.month + 1) ++
        formatDatetimeString newDate datetime_string b) ∧
    (formatDatetimeString newDate datetime_string (a ++ 'H' :: b) =
      formatDatetimeString newDate datetime_string a ++ twoDigitText f.hours ++
        formatDatetimeString newDate datetime_string b) ∧
    (formatDatetimeString newDate datetime_string (a ++ 'i' :: b) =
      formatDatetimeString newDate datetime_string a ++ twoDigitText f.minutes ++
        formatDatetimeString newDate datetime_string b) ∧
    (formatDatetimeString newDate datetime_string (a ++ 's' :: b) =
      formatDatetimeString newDate datetime_string a ++ twoDigitText f.seconds ++
        formatDatetimeString newDate datetime_string b) ∧
    (twoDigitText f.date).length = 2 ∧ (twoDigitText (f.month + 1)).length = 2 ∧
    (twoDigitText f.hours).length = 2 ∧ (twoDigitText f.minutes).length = 2 ∧
    (twoDigitText f.seconds).length = 2 ∧
    (formatDatetimeString newDate datetime_string (a ++ 'j' :: b) =
      formatDatetimeString newDate datetime_string a ++ decimalDigits f.date ++
        formatDatetimeString newDate datetime_string b) ∧
    (formatDatetimeString newDate datetime_string (a ++ 'n' :: b) =
      formatDatetimeString newDate datetime_string a ++ decimalDigits (f.month + 1) ++
        formatDatetimeString newDate datetime_string b) ∧
    (formatDatetimeString newDate datetime_string (a ++ 'G' :: b) =
      formatDatetimeString newDate datetime_string a ++ decimalDigits f.hours ++
        formatDatetimeString newDate datetime_string b) ∧
    (formatDatetimeString newDate datetime_string (a ++ 'Y' :: b) =
      formatDatetimeString newDate datetime_string a ++
        (if f.fullYear < 0 then '-' :: decimalDigits f.fullYear.natAbs
          else decimalDigits f.fullYear.toNat) ++
        formatDatetimeString newDate datetime_string b) ∧
    1 ≤ f.month + 1 ∧ f.month + 1 ≤ 12 := by
  obtain ⟨hm, hd1, hd2, hh, hmi, hs⟩ := hrange
  refine ⟨?_, ?_, ?_, ?_, ?_, twoDigitText_length _ (by omega), twoDigitText_length _ (by omega),
    twoDigitText_length _ (by omega), twoDigitText_length _ (by omega),
    twoDigitText_length _ (by omega), ?_, ?_, ?_, ?_, by omega, by omega⟩ <;>
  · apply formatDatetimeString_token newDate datetime_string a b _ _ ha (by decide) (by decide)
    rw [hvalid]
    simp [formatMap, JSDate.getDate, JSDate.getMonth, JSDate.getHours, JSDate.getMinutes,
      JSDate.getSeconds, JSDate.getFullYear, numberText, plusOne, integerText,
      padStart_decimalDigits]

theorem formatDatetimeString_numeric_tokens_witness :
    formatDatetimeString (fun _ => JSDate.valid ⟨2023, 3, 15, 14, 30, 5⟩)
      "2023-04-15T14:30:05".toList "Y-m-d H:i:s".toList = "2023-04-15 14:30:05".toList :=
  ((formatDatetimeString_numeric_tokens (fun _ => JSDate.valid ⟨2023, 3, 15, 14, 30, 5⟩)
    "2023-04-15T14:30:05".toList "Y-".toList "-d H:i:s".toList ⟨2023, 3, 15, 14, 30, 5⟩ rfl
    (by unfold DateFields.InRange; decide) (by unfold BracketFree; decide)).2.1).trans (by decide)

/-- C8: 12-hour clock tokens of a valid instant with hour `H`, wherever they stand outside
brackets: `g` renders `H mod 12` with `0` replaced by `12`, a value between 1 and 12 that is 12
for the hours 0 and 12; `h` renders the same value on two digits; `A` and `a` render `AM` and
`am` exactly when `H < 12`, and `PM` and `pm` otherwise. -/
theorem formatDatetimeString_twelve_hour_tokens (newDate : List Char → JSDate)
    (datetime_string a b : List Char) (f : DateFields)
    (hvalid : newDate datetime_string = JSDate.valid f) (hrange : f.InRange)
    (ha : BracketFree a) :
    (formatDatetimeString newDate datetime_string (a ++ 'g' :: b) =
      formatDatetimeString newDate datetime_string a ++ decimalDigits (twelveHour f.hours) ++
        formatDatetimeString newDate datetime_string b) ∧
    (1 ≤ twelveHour f.hours ∧ twelveHour f.hours ≤ 12) ∧
    (f.hours = 0 ∨ f.hours = 12 → twelveHour f.hours = 12) ∧
    (formatDatetimeString newDate datetime_string (a ++ 'h' :: b) =
      formatDatetimeString newDate datetime_string a ++ twoDigitText (twelveHour f.hours) ++
        formatDatetimeString newDate datetime_string b) ∧
    (twoDigitText (twelveHour f.hours)).length = 2 ∧
    (formatDatetimeString newDate datetime_string (a ++ 'A' :: b) =
      formatDatetimeString newDate datetime_string a ++
        (if f.hours < 12 then "AM".toList else "PM".toList) ++
        formatDatetimeString newDate datetime_string b) ∧
    (formatDatetimeString newDate datetime_string (a ++ 'a' :: b) =
      formatDatetimeString newDate datetime_string a ++
        (if f.hours < 12 then "am".toList else "pm".toList) ++
        formatDatetimeString newDate datetime_string b) := by
  have hh : f.hours ≤ 23 := hrange.2.2.2.1
  have hv : 1 ≤ twelveHour f.hours ∧ twelveHour f.hours ≤ 12 := by
    unfold twelveHour
    split_ifs <;> omega
  refine ⟨?_, hv, ?_, ?_, twoDigitText_length _ (by omega), ?_, ?_⟩
  · apply formatDatetimeString_token newDate datetime_string a b _ _ ha (by decide) (by decide)
    rw [hvalid]
    simp [formatMap, JSDate.getHours, modTwelveOrTwelve, twelveHour]
  · unfold twelveHour
    rintro (h | h) <;> simp [h]
  · apply formatDatetimeString_token newDate datetime_string a b _ _ ha (by decide) (by decide)
    rw [hvalid]
    simp [formatMap, JSDate.getHours, modTwelveOrTwelve, twelveHour, padStart_decimalDigits]
  · apply formatDatetimeString_token newDate datetime_string a b _ _ ha (by decide) (by decide)
    rw [hvalid]
    simp [formatMap, JSDate.getHours, lessThanTwelve]
  · apply formatDatetimeString_token newDate datetime_string a b _ _ ha (by decide) (by decide)
    rw [hvalid]
    simp [formatMap, JSDate.getHours, lessThanTwelve]

theorem formatDatetimeString_twelve_hour_tokens_witness :
    formatDatetimeString (fun _ => JSDate.valid ⟨2023, 3, 15, 0, 30, 5⟩)
      "2023-04-15T00:30:05".toList "g:i a".toList = "12:30 am".toList :=
  ((formatDatetimeString_twelve_hour_tokens (fun _ => JSDate.valid ⟨2023, 3, 15, 0, 30, 5⟩)
    "2023-04-15T00:30:05".toList [] ":i a".toList ⟨2023, 3, 15, 0, 30, 5⟩ rfl
    (by unfold DateFields.InRange; decide) (by unfold BracketFree; decide)).1).trans (by decide)

/-- C9 fails as stated: on the invalid date the token `h` is rendered as `12` and `A` as `PM`,
exactly as for a valid instant at noon. -/
theorem formatDatetimeString_invalid_plausible :
    formatDatetimeString (fun _ => JSDate.invalid) "not a date".toList "h A".toList =
      "12 PM".toList ∧
    formatDatetimeString (fun _ => JSDate.valid ⟨2023, 3, 15, 12, 30, 5⟩)
      "2023-04-15T12:30:05".toList "h A".toList = "12 PM".toList := by
  decide

/-- C9 (amended): when the datetime string cannot be parsed, every token other than `h`, `g`,
`A` and `a` is rendered as invalid-date text wherever it stands outside brackets: `d`, `m`, `Y`,
`H`, `i`, `s`, `j`, `n`, `G` as `NaN`, `y` as `aN`, `M` and `F` as `undefined`. -/
theorem formatDatetimeString_invalid_tokens (newDate : List Char → JSDate)
    (datetime_string a b : List Char) (c : Char)
    (hinvalid : newDate datetime_string = JSDate.invalid) (ha : BracketFree a) :
    (c ∈ "dmYHisjnG".toList →
      formatDatetimeString newDate datetime_string (a ++ c :: b) =
        formatDatetimeString newDate datetime_string a ++ "NaN".toList ++
          formatDatetimeString newDate datetime_string b) ∧
    (c = 'y' →
      formatDatetimeString newDate datetime_string (a ++ c :: b) =
        formatDatetimeString newDate datetime_string a ++ "aN".toList ++
          formatDatetimeString newDate datetime_string b) ∧
    (c ∈ "MF".toList →
      formatDatetimeString newDate datetime_string (a ++ c :: b) =
        formatDatetimeString newDate datetime_string a ++ "undefined".toList ++
          formatDatetimeString newDate datetime_string b) := by
  refine ⟨?_, ?_, ?_⟩
  · intro hc
    simp only [String.toList, List.mem_cons, List.mem_singleton] at hc
    rcases hc with h | h | h | h | h | h | h | h | h | h <;> first
      | (subst h
         apply formatDatetimeString_token newDate datetime_string a b _ _ ha (by decide)
           (by decide)
         rw [hinvalid]
         decide)
      | simp at h
  · intro h
    subst h
    apply formatDatetimeString_token newDate datetime_string a b _ _ ha (by decide) (by decide)
    rw [hinvalid]
    decide
  · intro hc
    simp only [String.toList, List.mem_cons, List.mem_singleton] at hc
    rcases hc with h | h | h <;> first
      | (subst h
         apply formatDatetimeString_token newDate datetime_string a b _ _ ha (by decide)
           (by decide)
         rw [hinvalid]
         decide)
      | simp at h

theorem formatDatetimeString_invalid_tokens_witness :
    formatDatetimeString (fun _ => JSDate.invalid) "not a date".toList "Y-d".toList =
      "NaN-NaN".toList :=
  ((formatDatetimeString_invalid_tokens (fun _ => JSDate.invalid) "not a date".toList
    [] "-d".toList 'Y' rfl (by unfold BracketFree; decide)).1 (by decide)).trans (by decide)

/-! ## The text handed to the number parser, and what the result depends on -/

theorem currencyBuffer_invariant (value : List Char) :
    (∀ c ∈ currencyBuffer value, c.isDigit = true ∨ c = '.') ∧
      (currencyBuffer value).count '.' ≤ 1 ∧
      (((currencyBuffer value).dropWhile (fun c => c != '.')).drop 1).length ≤ 2 := by
  have hi := integerDigits_isDigit value
  have hf : ∀ c ∈ (fractionDigits value).take 2, c.isDigit = true :=
    fun c hc => fractionDigits_isDigit value c (List.mem_of_mem_take hc)
  have hlen : ((fractionDigits value).take 2).length ≤ 2 := by simp
  have hne : ∀ c ∈ integerDigits value, (c != '.') = true := by
    intro c hc
    simp [isDigit_ne_dot c (hi c hc)]
  have hcI : (integerDigits value).count '.' = 0 := by
    rw [List.count_eq_zero]
    intro hmem
    exact isDigit_ne_dot _ (hi _ hmem) rfl
  have hcF : ((fractionDigits value).take 2).count '.' = 0 := by
    rw [List.count_eq_zero]
    intro hmem
    exact isDigit_ne_dot _ (hf _ hmem) rfl
  rw [currencyBuffer_eq]
  generalize (fractionDigits value).take 2 = F at *
  generalize integerDigits value = I at *
  by_cases hdot : '.' ∈ stripNonNumeric value
  · rw [if_pos hdot]
    refine ⟨?_, ?_, ?_⟩
    · intro c hc
      simp only [List.mem_append, List.mem_cons] at hc
      rcases hc with h | h | h
      · exact Or.inl (hi c h)
      · exact Or.inr h
      · exact Or.inl (hf c h)
    · rw [List.count_append, List.count_cons_self, hcI, hcF]
    · rw [List.dropWhile_append_of_pos hne]
      simpa [List.dropWhile] using hlen
  · rw [if_neg hdot, List.append_nil]
    refine ⟨fun c hc => Or.inl (hi c hc), by omega, ?_⟩
    have : I.dropWhile (fun c => c != '.') = [] := List.dropWhile_eq_nil_iff.mpr hne
    simp [this]

/-- C18: the text that `formatCurrency` hands to the number parser, after the strip, merge and
cut steps, holds only digits and `'.'`, at most one `'.'`, and at most two characters after
it. -/
theorem currencyBuffer_digits_one_dot (value : List Char) :
    (∀ c ∈ currencyBuffer value, c.isDigit = true ∨ c = '.') ∧
      (currencyBuffer value).count '.' ≤ 1 ∧
      (((currencyBuffer value).dropWhile (fun c => c != '.')).drop 1).length ≤ 2 :=
  currencyBuffer_invariant value

theorem stripNonNumeric_idem (value : List Char) :
    stripNonNumeric (stripNonNumeric value) = stripNonNumeric value := by
  unfold stripNonNumeric
  rw [List.filter_filter]
  simp

theorem currencyBuffer_stripNonNumeric (value : List Char) :
    currencyBuffer (stripNonNumeric value) = currencyBuffer value := by
  unfold currencyBuffer
  simp only [stripNonNumeric_idem]

theorem numberToStringLarge_chars (X : Nat) :
    ∀ c ∈ numberToStringLarge X, c.isDigit = true ∨ c = '.' ∨ c = 'e' ∨ c = '+' := by
  intro c hc
  unfold numberToStringLarge at hc
  simp only at hc
  split_ifs at hc
  · simp only [List.mem_append, List.mem_cons, List.mem_singleton, List.not_mem_nil,
      or_false] at hc
    rcases hc with (h | h | h) | h
    · exact Or.inl (decimalDigits_isDigit _ c h)
    · exact Or.inr (Or.inr (Or.inl h))
    · exact Or.inr (Or.inr (Or.inr h))
    · exact Or.inl (decimalDigits_isDigit _ c h)
  · simp only [List.mem_append, List.mem_cons, List.mem_singleton, List.not_mem_nil,
      or_false] at hc
    rcases hc with ((((h | h) | h) | h | h)) | h
    · exact Or.inl (decimalDigits_isDigit _ c (List.mem_of_mem_take h))
    · exact Or.inr (Or.inl h)
    · exact Or.inl (decimalDigits_isDigit _ c (List.mem_of_mem_drop h))
    · exact Or.inr (Or.inr (Or.inl h))
    · exact Or.inr (Or.inr (Or.inr h))
    · exact Or.inl (decimalDigits_isDigit _ c h)

theorem minus_not_mem_toFixed (x : JSNumber) : '-' ∉ toFixed x 2 := by
  cases x with
  | nan => decide
  | infinity => decide
  | finite num den =>
    by_cases hbig : 10 ^ 21 * den ≤ num
    · intro hmem
      have : toFixed (JSNumber.finite num den) 2 = numberToStringLarge (num / den) := by
        unfold toFixed
        simp only [hbig, if_true]
      rw [this] at hmem
      rcases numberToStringLarge_chars _ _ hmem with h | h | h | h
      · exact absurd h (by decide)
      · exact absurd h (by decide)
      · exact absurd h (by decide)
      · exact absurd h (by decide)
    · rw [toFixed_two num den hbig]
      intro hmem
      simp only [List.mem_append, List.mem_cons, List.mem_singleton, List.not_mem_nil,
        or_false] at hmem
      rcases hmem with h | h | h | h
      · exact absurd (decimalDigits_isDigit _ _ h) (by decide)
      · exact absurd h (by decide)
      · have := digitChar_isDigit ((2 * 10 ^ 2 * num + den) / (2 * den) % 100 / 10) (by omega)
        rw [← h] at this
        exact absurd this (by decide)
      · have := digitChar_isDigit ((2 * 10 ^ 2 * num + den) / (2 * den) % 10) (by omega)
        rw [← h] at this
        exact absurd this (by decide)

theorem minus_not_mem_formatCurrency (value : List Char) : '-' ∉ formatCurrency value := by
  unfold formatCurrency
  simp only
  split_ifs
  · decide
  · exact minus_not_mem_toFixed _

/-- C19: `formatCurrency` depends only on the digits and `'.'` of its input, in order: the
result on `s` is the result on `s` with every other character deleted; a minus sign is dropped,
so `"-12.5"` gives `"12.50"` like `"12.5"`, and no result holds a minus sign. -/
theorem formatCurrency_stripNonNumeric :
    (∀ s : List Char, formatCurrency (stripNonNumeric s) = formatCurrency s) ∧
      (∀ s : List Char, '-' ∉ formatCurrency s) ∧
      formatCurrency "-12.5".toList = formatCurrency "12.5".toList ∧
      formatCurrency "12.5".toList = "12.50".toList := by
  refine ⟨?_, minus_not_mem_formatCurrency, by decide, by decide⟩
  intro s
  unfold formatCurrency
  rw [currencyBuffer_stripNonNumeric]

/-- C16 at the input of the doc comment: `formatCurrency('1234.5678')` is `'1234.56'`, the
fraction being cut to two digits before the Number is formed, and not `'1234.57'`. -/
theorem formatCurrency_doc_example :
    formatCurrency "1234.5678".toList = "1234.56".toList ∧
      formatCurrency "1234.5678".toList ≠ "1234.57".toList := by
  decide

/-! ## No bracket in the result of `formatDatetimeString` -/

theorem bracketFree_of_isDigit (s : List Char) (h : ∀ c ∈ s, c.isDigit = true) :
    BracketFree s := by
  intro c hc
  have hd := h c hc
  constructor <;> rintro rfl <;> exact absurd hd (by decide)

theorem bracketFree_decimalDigits (n : Nat) : BracketFree (decimalDigits n) :=
  bracketFree_of_isDigit _ (decimalDigits_isDigit n)

theorem bracketFree_append (s t : List Char) (hs : BracketFree s) (ht : BracketFree t) :
    BracketFree (s ++ t) := by
  intro c hc
  rcases List.mem_append.mp hc with h | h
  · exact hs c h
  · exact ht c h

theorem bracketFree_numberText (x : Option Nat) : BracketFree (numberText x) := by
  cases x with
  | none => unfold BracketFree numberText; decide
  | some n => exact bracketFree_decimalDigits n

theorem bracketFree_integerText (x : Option Int) : BracketFree (integerText x) := by
  cases x with
  | none => unfold BracketFree integerText; decide
  | some i =>
    unfold integerText
    simp only
    split_ifs
    · intro c hc
      rcases List.mem_cons.mp hc with h | h
      · subst h; decide
      · exact bracketFree_decimalDigits _ c h
    · exact bracketFree_decimalDigits _

theorem bracketFree_padStart (s : List Char) (hs : BracketFree s) :
    BracketFree (padStart s 2 '0') := by
  unfold padStart
  split_ifs
  · exact hs
  · apply bracketFree_append _ _ _ hs
    intro c hc
    have := List.eq_of_mem_replicate hc
    subst this
    decide

theorem bracketFree_sliceLastTwo (s : List Char) (hs : BracketFree s) :
    BracketFree (sliceLastTwo s) :=
  fun c hc => hs c (List.mem_of_mem_drop hc)

theorem bracketFree_elementText (names : List String)
    (h : ∀ name ∈ names, BracketFree name.toList) (x : Option Nat) :
    BracketFree (elementText names x) := by
  have hu : BracketFree "undefined".toList := by unfold BracketFree; decide
  cases x with
  | none => exact hu
  | some i =>
    show BracketFree (match names.get? i with
      | some name => name.toList
      | none => "undefined".toList)
    cases hget : names.get? i with
    | none => exact hu
    | some name => exact h name (List.get?_mem hget)

theorem bracketFree_monthNames :
    (∀ name ∈ shortMonthNames, BracketFree name.toList) ∧
      (∀ name ∈ fullMonthNames, BracketFree name.toList) := by
  unfold BracketFree
  decide

theorem bracketFree_formatMap (date : JSDate) (c : Char) (v : List Char)
    (h : formatMap date c = some v) : BracketFree v := by
  have hAM : BracketFree "AM".toList := by unfold BracketFree; decide
  have hPM : BracketFree "PM".toList := by unfold BracketFree; decide
  have ham : BracketFree "am".toList := by unfold BracketFree; decide
  have hpm : BracketFree "pm".toList := by unfold BracketFree; decide
  unfold formatMap at h
  by_cases hk100 : c = 'd'
  · rw [if_pos hk100] at h
    injection h with h
    subst h
    exact bracketFree_padStart _ (bracketFree_numberText _)
  rw [if_neg hk100] at h
  by_cases hk109 : c = 'm'
  · rw [if_pos hk109] at h
    injection h with h
    subst h
    exact bracketFree_padStart _ (bracketFree_numberText _)
  rw [if_neg hk109] at h
  by_cases hk89 : c = 'Y'
  · rw [if_pos hk89] at h
    injection h with h
    subst h
    exact bracketFree_integerText _
  rw [if_neg hk89] at h
  by_cases hk72 : c = 'H'
  · rw [if_pos hk72] at h
    injection h with h
    subst h
    exact bracketFree_padStart _ (bracketFree_numberText _)
  rw [if_neg hk72] at h
  by_cases hk104 : c = 'h'
  · rw [if_pos hk104] at h
    injection h with h
    subst h
    exact bracketFree_padStart _ (bracketFree_decimalDigits _)
  rw [if_neg hk104] at h
  by_cases hk105 : c = 'i'
  · rw [if_pos hk105] at h
    injection h with h
    subst h
    exact bracketFree_padStart _ (bracketFree_numberText _)
  rw [if_neg hk105] at h
  by_cases hk115 : c = 's'
  · rw [if_pos hk115] at h
    injection h with h
    subst h
    exact bracketFree_padStart _ (bracketFree_numberText _)
  rw [if_neg hk115] at h
  by_cases hk106 : c = 'j'
  · rw [if_pos hk106] at h
    injection h with h
    subst h
    exact bracketFree_numberText _
  rw [if_neg hk106] at h
  by_cases hk110 : c = 'n'
  · rw [if_pos hk110] at h
    injection h with h
    subst h
    exact bracketFree_numberText _
  rw [if_neg hk110] at h
  by_cases hk121 : c = 'y'
  · rw [if_pos hk121] at h
    injection h with h
    subst h
    exact bracketFree_sliceLastTwo _ (bracketFree_integerText _)
  rw [if_neg hk121] at h
  by_cases hk71 : c = 'G'
  · rw [if_pos hk71] at h
    injection h with h
    subst h
    exact bracketFree_numberText _
  rw [if_neg hk71] at h
  by_cases hk103 : c = 'g'
  · rw [if_pos hk103] at h
    injection h with h
    subst h
    exact bracketFree_decimalDigits _
  rw [if_neg hk103] at h
  by_cases hk65 : c = 'A'
  · rw [if_pos hk65] at h
    injection h with h
    subst h
    split_ifs
    · exact hAM
    · exact hPM
  rw [if_neg hk65] at h
  by_cases hk97 : c = 'a'
  · rw [if_pos hk97] at h
    injection h with h
    subst h
    split_ifs
    · exact ham
    · exact hpm
  rw [if_neg hk97] at h
  by_cases hk77 : c = 'M'
  · rw [if_pos hk77] at h
    injection h with h
    subst h
    exact bracketFree_elementText _ bracketFree_monthNames.1 _
  rw [if_neg hk77] at h
  by_cases hk70 : c = 'F'
  · rw [if_pos hk70] at h
    injection h with h
    subst h
    exact bracketFree_elementText _ bracketFree_monthNames.2 _
  rw [if_neg hk70] at h
  exact Option.noConfusion h

theorem bracketFree_formatLoop (map : Char → Option (List Char))
    (hmap : ∀ c v, map c = some v → BracketFree v) (p : List Char) :
    ∀ (result : List Char) (inBrackets : Bool), BracketFree result →
      BracketFree (formatLoop map p result inBrackets) := by
  induction p with
  | nil => intro result inBrackets h; simpa [formatLoop] using h
  | cons c rest ih =>
    intro result inBrackets h
    simp only [formatLoop]
    by_cases h1 : c = '['
    · rw [if_pos h1]; exact ih result true h
    by_cases h2 : c = ']'
    · rw [if_neg h1, if_pos h2]; exact ih result false h
    rw [if_neg h1, if_neg h2]
    have hc : BracketFree [c] := by
      intro x hx
      rw [List.mem_singleton] at hx
      subst hx
      exact ⟨h1, h2⟩
    split_ifs
    · exact ih _ _ (bracketFree_append _ _ h hc)
    · cases hm : map c with
      | none => exact ih _ _ (bracketFree_append _ _ h hc)
      | some v => exact ih _ _ (bracketFree_append _ _ h (hmap c v hm))

/-- C20: for every instant, valid or not, and every pattern, the result of
`formatDatetimeString` holds neither `'['` nor `']'`. -/
theorem formatDatetimeString_no_bracket (newDate : List Char → JSDate)
    (datetime_string desired_format : List Char) :
    '[' ∉ formatDatetimeString newDate datetime_string desired_format ∧
      ']' ∉ formatDatetimeString newDate datetime_string desired_format := by
  have h := bracketFree_formatLoop (formatMap (newDate datetime_string))
    (bracketFree_formatMap _) desired_format [] false (by intro c hc; simp at hc)
  exact ⟨fun hm => (h _ hm).1 rfl, fun hm => (h _ hm).2 rfl⟩

/-! ## Padding -/

theorem jsLength_append (s t : List Char) : jsLength (s ++ t) = jsLength s + jsLength t := by
  simp [jsLength]

theorem jsLength_replicate_flatten (m : Nat) (f : List Char) :
    jsLength (List.replicate m f).flatten = m * jsLength f := by
  induction m with
  | zero => simp [jsLength]
  | succ m ih =>
    rw [List.replicate_succ, List.flatten_cons, jsLength_append, ih]
    ring

theorem jsLength_singleton (c : Char) (hc : c.toNat < 65536) : jsLength [c] = 1 := by
  simp [jsLength, hc]

theorem replicate_singleton_flatten (m : Nat) (c : Char) :
    (List.replicate m [c]).flatten = List.replicate m c := by
  induction m with
  | zero => rfl
  | succ m ih => rw [List.replicate_succ, List.flatten_cons, ih]; rfl

theorem lpad_eq {V : Type} (toStr : V → List Char) (v : V) (fill : List Char) (t : Nat)
    (hfill : fill ≠ []) :
    lpad toStr v (some fill) (some t) =
      if t ≤ jsLength (toStr v) then toStr v
      else (List.replicate (t - jsLength (toStr v)) fill).flatten ++ toStr v := by
  unfold lpad joinUndefined
  simp [hfill]

theorem rpad_eq {V : Type} (toStr : V → List Char) (v : V) (fill : List Char) (t : Nat)
    (hfill : fill ≠ []) :
    rpad toStr v (some fill) (some t) =
      if t ≤ jsLength (toStr v) then toStr v
      else toStr v ++ (List.replicate (t - jsLength (toStr v)) fill).flatten := by
  unfold rpad joinUndefined
  simp [hfill]

/-- C11: with a fill of one character (one UTF-16 code unit), `lpad` and `rpad` return the
string form of the value unchanged when its length is at least the target; otherwise the result
has exactly the target length and is the string form preceded (`lpad`) or followed (`rpad`) by
copies of the fill character only, so that dropping the added characters gives it back.  The
fill defaults to `'0'` and the target to 2; `lpad('5', '0', 3)` is `'005'` and
`rpad('5', '0', 3)` is `'500'`. -/
theorem lpad_rpad_single_fill {V : Type} (toStr : V → List Char) (v : V) (c : Char) (t : Nat)
    (hc : c.toNat < 65536) :
    (t ≤ jsLength (toStr v) →
      lpad toStr v (some [c]) (some t) = toStr v ∧ rpad toStr v (some [c]) (some t) = toStr v) ∧
    (jsLength (toStr v) < t →
      lpad toStr v (some [c]) (some t) =
        List.replicate (t - jsLength (toStr v)) c ++ toStr v ∧
      rpad toStr v (some [c]) (some t) =
        toStr v ++ List.replicate (t - jsLength (toStr v)) c ∧
      jsLength (lpad toStr v (some [c]) (some t)) = t ∧
      jsLength (rpad toStr v (some [c]) (some t)) = t ∧
      (lpad toStr v (some [c]) (some t)).drop (t - jsLength (toStr v)) = toStr v ∧
      (rpad toStr v (some [c]) (some t)).take (toStr v).length = toStr v) ∧
    lpad toStr v none none = lpad toStr v (some ['0']) (some 2) ∧
    rpad toStr v none none = rpad toStr v (some ['0']) (some 2) ∧
    lpad id "5".toList (some "0".toList) (some 3) = "005".toList ∧
    rpad id "5".toList (some "0".toList) (some 3) = "500".toList := by
  have hne : [c] ≠ [] := by simp
  refine ⟨?_, ?_, rfl, rfl, by decide, by decide⟩
  · intro h
    simp only [lpad_eq toStr v [c] t hne, rpad_eq toStr v [c] t hne, if_pos h]
    exact ⟨trivial, trivial⟩
  · intro h
    have hnot : ¬ t ≤ jsLength (toStr v) := by omega
    simp only [lpad_eq toStr v [c] t hne, rpad_eq toStr v [c] t hne, if_neg hnot,
      replicate_singleton_flatten]
    have hrep : jsLength (List.replicate (t - jsLength (toStr v)) c) =
        t - jsLength (toStr v) := by
      rw [← replicate_singleton_flatten, jsLength_replicate_flatten, jsLength_singleton c hc]
      omega
    refine ⟨trivial, trivial, ?_, ?_, ?_, ?_⟩
    · rw [jsLength_append, hrep]; omega
    · rw [jsLength_append, hrep]; omega
    · rw [List.drop_append_eq_append_drop]
      simp
    · simp

theorem lpad_rpad_single_fill_witness :
    lpad id "7".toList (some "*".toList) (some 4) = "***7".toList ∧
      rpad id "7".toList (some "*".toList) (some 4) = "7***".toList :=
  ⟨((lpad_rpad_single_fill id "7".toList '*' 4 (by decide)).2.1 (by decide)).1.trans
      (by decide),
    ((lpad_rpad_single_fill id "7".toList '*' 4 (by decide)).2.1 (by decide)).2.1.trans
      (by decide)⟩

/-- C12: a fill of two or more characters is repeated as a whole: when the string form of the
value has length `n` below the target `t`, `lpad` returns the fill repeated `t - n` times
followed by the string form, `rpad` the string form followed by that repetition, and the result
has length `n + (t - n) * length(fill)`, which is not `t`. -/
theorem lpad_rpad_long_fill {V : Type} (toStr : V → List Char) (v : V) (fill : List Char)
    (t : Nat) (hfill : 2 ≤ jsLength fill) (ht : jsLength (toStr v) < t) :
    lpad toStr v (some fill) (some t) =
      (List.replicate (t - jsLength (toStr v)) fill).flatten ++ toStr v ∧
    rpad toStr v (some fill) (some t) =
      toStr v ++ (List.replicate (t - jsLength (toStr v)) fill).flatten ∧
    jsLength (lpad toStr v (some fill) (some t)) =
      jsLength (toStr v) + (t - jsLength (toStr v)) * jsLength fill ∧
    jsLength (rpad toStr v (some fill) (some t)) =
      jsLength (toStr v) + (t - jsLength (toStr v)) * jsLength fill ∧
    jsLength (lpad toStr v (some fill) (some t)) ≠ t ∧
    jsLength (rpad toStr v (some fill) (some t)) ≠ t := by
  have hne : fill ≠ [] := by
    rintro rfl
    simp [jsLength] at hfill
  have hnot : ¬ t ≤ jsLength (toStr v) := by omega
  have hmul : 2 * (t - jsLength (toStr v)) ≤ (t - jsLength (toStr v)) * jsLength fill := by
    rw [Nat.mul_comm]
    exact Nat.mul_le_mul_left _ hfill
  simp only [lpad_eq toStr v fill t hne, rpad_eq toStr v fill t hne, if_neg hnot]
  refine ⟨trivial, trivial, ?_, ?_, ?_, ?_⟩
  · rw [jsLength_append, jsLength_replicate_flatten]; omega
  · rw [jsLength_append, jsLength_replicate_flatten]
  · rw [jsLength_append, jsLength_replicate_flatten]; omega
  · rw [jsLength_append, jsLength_replicate_flatten]; omega

theorem lpad_rpad_long_fill_witness :
    lpad id "5".toList (some "ab".toList) (some 3) = "abab5".toList ∧
      rpad id "5".toList (some "ab".toList) (some 3) = "5abab".toList :=
  ⟨(lpad_rpad_long_fill id "5".toList "ab".toList 3 (by decide) (by decide)).1.trans
      (by decide),
    (lpad_rpad_long_fill id "5".toList "ab".toList 3 (by decide) (by decide)).2.1.trans
      (by decide)⟩

/-! ## `pluralise` -/

theorem toLowerCase_eq_s (c : Char) : toLowerCase c = 's' ↔ c = 's' ∨ c = 'S' := by
  unfold toLowerCase Char.toLower
  simp only
  by_cases h : c.toNat ≥ 65 ∧ c.toNat ≤ 90
  · rw [if_pos h]
    have hc : c = Char.ofNat c.toNat := by simp
    obtain ⟨h65, h90⟩ := h
    generalize c.toNat = n at *
    subst hc
    interval_cases n <;> decide
  · rw [if_neg h]
    constructor
    · intro hs; exact Or.inl hs
    · rintro (hs | hs)
      · exact hs
      · subst hs
        exact absurd (by decide) h

theorem toLowerCase_eq_y (c : Char) : toLowerCase c = 'y' ↔ c = 'y' ∨ c = 'Y' := by
  unfold toLowerCase Char.toLower
  simp only
  by_cases h : c.toNat ≥ 65 ∧ c.toNat ≤ 90
  · rw [if_pos h]
    have hc : c = Char.ofNat c.toNat := by simp
    obtain ⟨h65, h90⟩ := h
    generalize c.toNat = n at *
    subst hc
    interval_cases n <;> decide
  · rw [if_neg h]
    constructor
    · intro hs; exact Or.inl hs
    · rintro (hs | hs)
      · exact hs
      · subst hs
        exact absurd (by decide) h

theorem pluralise_of_last (s : List Char) (possessive : Bool) (c : Char)
    (hlast : (trim s).getLast? = some c) :
    pluralise (JSValue.string s) possessive =
      if possessive = true then
        Except.ok (trim s ++ (if c = 's' ∨ c = 'S' then [apostrophe] else [apostrophe, 's']))
      else if c = 's' ∨ c = 'S' then Except.ok (trim s ++ [apostrophe])
      else if c = 'y' ∨ c = 'Y' then Except.ok ((trim s).dropLast ++ "ies".toList)
      else Except.ok (trim s ++ ['s']) := by
  unfold pluralise
  simp only [hlast, toLowerCase_eq_s, toLowerCase_eq_y]

/-- C13 fails as stated: the last character is compared after `toLowerCase()`, so a final
capital `Y` is replaced by `ies` too, and `pluralise("CITY")` is `"CITies"`, not `"CITYs"`. -/
theorem pluralise_capital_y :
    pluralise (JSValue.string "CITY".toList) false = Except.ok "CITies".toList ∧
      pluralise (JSValue.string "CITY".toList) false ≠ Except.ok "CITYs".toList := by
  decide

/-- C13 (amended): for every string whose trimmed form `t` is not empty, `pluralise` returns
`t` followed by an apostrophe when the last character of `t` is `s` in either case, whatever
the possessive flag; otherwise `t` followed by an apostrophe and `s` when possessive is set;
otherwise, when the last character is `y` in either case, `t` with that character replaced by
`ies`; otherwise `t` followed by `s`. -/
theorem pluralise_rules (s : List Char) (possessive : Bool) (c : Char)
    (hlast : (trim s).getLast? = some c) :
    ((c = 's' ∨ c = 'S') →
      pluralise (JSValue.string s) possessive = Except.ok (trim s ++ [apostrophe])) ∧
    (¬ (c = 's' ∨ c = 'S') → possessive = true →
      pluralise (JSValue.string s) possessive = Except.ok (trim s ++ [apostrophe, 's'])) ∧
    (¬ (c = 's' ∨ c = 'S') → possessive = false → (c = 'y' ∨ c = 'Y') →
      pluralise (JSValue.string s) possessive =
        Except.ok ((trim s).dropLast ++ "ies".toList)) ∧
    (¬ (c = 's' ∨ c = 'S') → possessive = false → ¬ (c = 'y' ∨ c = 'Y') →
      pluralise (JSValue.string s) possessive = Except.ok (trim s ++ ['s'])) := by
  rw [pluralise_of_last s possessive c hlast]
  refine ⟨?_, ?_, ?_, ?_⟩
  · intro hs
    cases possessive <;> simp [hs]
  · intro hs hp
    simp [hs, hp]
  · intro hs hp hy
    simp [hs, hp, hy]
  · intro hs hp hy
    simp [hs, hp, hy]

theorem pluralise_rules_witness :
    pluralise (JSValue.string "cat".toList) false = Except.ok "cats".toList ∧
    pluralise (JSValue.string "cat".toList) true =
      Except.ok ("cat".toList ++ [apostrophe, 's']) ∧
    pluralise (JSValue.string "boss".toList) false =
      Except.ok ("boss".toList ++ [apostrophe]) ∧
    pluralise (JSValue.string "city".toList) false = Except.ok "cities".toList :=
  ⟨((pluralise_rules "cat".toList false 't' (by decide)).2.2.2 (by decide) rfl
      (by decide)).trans (by decide),
    ((pluralise_rules "cat".toList true 't' (by decide)).2.1 (by decide) rfl).trans
      (by decide),
    ((pluralise_rules "boss".toList false 's' (by decide)).1 (by decide)).trans (by decide),
    ((pluralise_rules "city".toList false 'y' (by decide)).2.2.1 (by decide) rfl
      (by decide)).trans (by decide)⟩

/-- C14 at failing inputs: on the empty string and on a string of white space `pluralise`
throws a `TypeError` instead of returning a string; on every value that is not a string it
returns the empty string. -/
theorem pluralise_empty_throws :
    pluralise (JSValue.string []) false = Except.error JSError.typeError ∧
    pluralise (JSValue.string "   ".toList) false = Except.error JSError.typeError ∧
    pluralise (JSValue.string []) true = Except.error JSError.typeError ∧
    (∀ (v : JSValue) (possessive : Bool), (∀ s, v ≠ JSValue.string s) →
      pluralise v possessive = Except.ok []) := by
  refine ⟨by decide, by decide, by decide, ?_⟩
  intro v possessive hv
  cases v with
  | string s => exact absurd rfl (hv s)
  | undefined => rfl
  | null => rfl
  | boolean b => rfl
  | number x => rfl
  | object => rfl

/-! ## `chunk` -/

theorem chunkLoop_done {α : Type} (arr : List α) (k fuel i : Nat) (r : List (List α))
    (h : ¬ i < arr.length) : chunkLoop arr k fuel i r = some r := by
  unfold chunkLoop
  rw [if_neg h]

theorem chunkLoop_step {α : Type} (arr : List α) (k fuel i : Nat) (r : List (List α))
    (h : i < arr.length) :
    chunkLoop arr k (fuel + 1) i r =
      chunkLoop arr k fuel (i + k) (r ++ [arraySlice arr i (i + k)]) := by
  conv_lhs => unfold chunkLoop
  rw [if_pos h]

theorem chunkLoop_mono {α : Type} (arr : List α) (k : Nat) (fuel : Nat) :
    ∀ (i : Nat) (r x : List (List α)), chunkLoop arr k fuel i r = some x →
      ∀ fuel1, fuel ≤ fuel1 → chunkLoop arr k fuel1 i r = some x := by
  induction fuel with
  | zero =>
    intro i r x h fuel1 _
    by_cases hi : i < arr.length
    · unfold chunkLoop at h
      rw [if_pos hi] at h
      exact Option.noConfusion h
    · rw [chunkLoop_done arr k 0 i r hi] at h
      rw [chunkLoop_done arr k fuel1 i r hi]
      exact h
  | succ fuel ih =>
    intro i r x h fuel1 hle
    by_cases hi : i < arr.length
    · obtain ⟨f, rfl⟩ : ∃ f, fuel1 = f + 1 := ⟨fuel1 - 1, by omega⟩
      rw [chunkLoop_step arr k fuel i r hi] at h
      rw [chunkLoop_step arr k f i r hi]
      exact ih _ _ _ h f (by omega)
    · rw [chunkLoop_done arr k _ i r hi] at h
      rw [chunkLoop_done arr k fuel1 i r hi]
      exact h

theorem arraySlice_append_drop {α : Type} (arr : List α) (i k : Nat) :
    arraySlice arr i (i + k) ++ arr.drop (i + k) = arr.drop i := by
  unfold arraySlice
  rw [List.drop_take, ← List.drop_drop]
  have : i + k - i = k := by omega
  rw [this]
  exact List.take_append_drop k (List.drop i arr)

theorem arraySlice_length {α : Type} (arr : List α) (i k : Nat) :
    (arraySlice arr i (i + k)).length = min (i + k) arr.length - i := by
  unfold arraySlice
  simp

theorem chunkLoop_spec {α : Type} (arr : List α) (k : Nat) (hk : 1 ≤ k) (n : Nat) :
    ∀ (i : Nat) (r : List (List α)), arr.length - i ≤ n →
      ∃ tail, chunkLoop arr k n i r = some (r ++ tail) ∧ tail.flatten = arr.drop i ∧
        (∀ c ∈ tail.dropLast, c.length = k) ∧
        (∀ c, tail.getLast? = some c → 1 ≤ c.length ∧ c.length ≤ k) ∧
        (arr.length ≤ i → tail = []) := by
  induction n with
  | zero =>
    intro i r h
    refine ⟨[], ?_, ?_, ?_, ?_, fun _ => rfl⟩
    · rw [chunkLoop_done arr k 0 i r (by omega)]; simp
    · rw [List.drop_eq_nil_of_le (by omega)]; rfl
    · intro c hc; simp at hc
    · intro c hc; simp at hc
  | succ n ih =>
    intro i r h
    by_cases hi : i < arr.length
    · obtain ⟨tail, h1, h2, h3, h4, h5⟩ :=
        ih (i + k) (r ++ [arraySlice arr i (i + k)]) (by omega)
      refine ⟨arraySlice arr i (i + k) :: tail, ?_, ?_, ?_, ?_, ?_⟩
      · rw [chunkLoop_step arr k n i r hi, h1]
        simp
      · rw [List.flatten_cons, h2]
        exact arraySlice_append_drop arr i k
      · intro c hc
        cases tail with
        | nil => simp at hc
        | cons t ts =>
          have hlt : i + k < arr.length := by
            by_contra hcon
            have := h5 (by omega)
            exact List.noConfusion this
          rw [List.dropLast_cons₂] at hc
          rcases List.mem_cons.mp hc with hc | hc
          · rw [hc, arraySlice_length]
            omega
          · exact h3 c hc
      · intro c hc
        cases tail with
        | nil =>
          simp at hc
          rw [← hc, arraySlice_length]
          omega
        | cons t ts =>
          rw [List.getLast?_cons_cons] at hc
          exact h4 c hc
      · intro hle
        omega
    · refine ⟨[], ?_, ?_, ?_, ?_, fun _ => rfl⟩
      · rw [chunkLoop_done arr k _ i r hi]; simp
      · rw [List.drop_eq_nil_of_le (by omega)]; rfl
      · intro c hc; simp at hc
      · intro c hc; simp at hc

/-- C17: for every array and every chunk size `k ≥ 1`, `chunk` terminates, within as many
iterations as the array has elements, and returns slices whose concatenation in order is the
array; every slice but the last has exactly `k` elements and the last has between 1 and `k`;
the empty array gives no slice. -/
theorem chunk_slices {α : Type} (arr : List α) (k : Nat) (hk : 1 ≤ k) :
    ∃ slices, (∀ fuel, arr.length ≤ fuel → chunk arr k fuel = some slices) ∧
      slices.flatten = arr ∧
      (∀ c ∈ slices.dropLast, c.length = k) ∧
      (∀ c, slices.getLast? = some c → 1 ≤ c.length ∧ c.length ≤ k) ∧
      (arr = [] → slices = []) := by
  obtain ⟨tail, h1, h2, h3, h4, h5⟩ := chunkLoop_spec arr k hk arr.length 0 [] (by omega)
  refine ⟨tail, ?_, by simpa using h2, h3, h4, ?_⟩
  · intro fuel hfuel
    unfold chunk
    have := chunkLoop_mono arr k arr.length 0 [] _ h1 fuel hfuel
    simpa using this
  · intro hnil
    apply h5
    rw [hnil]
    simp

theorem chunk_slices_witness :
    chunk [1, 2, 3, 4, 5] 2 5 = some [[1, 2], [3, 4], [5]] ∧
      ∃ slices, (∀ fuel, [1, 2, 3, 4, 5].length ≤ fuel →
          chunk [1, 2, 3, 4, 5] 2 fuel = some slices) ∧
        slices.flatten = [1, 2, 3, 4, 5] ∧
        (∀ c ∈ slices.dropLast, c.length = 2) ∧
        (∀ c, slices.getLast? = some c → 1 ≤ c.length ∧ c.length ≤ 2) ∧
        ([1, 2, 3, 4, 5] = [] → slices = []) :=
  ⟨by decide, chunk_slices [1, 2, 3, 4, 5] 2 (by decide)⟩

/-! ## `ordinalSuffix` on the safe integers -/

theorem roundTiesToEven_one (N : Nat) : roundTiesToEven N 1 = N := by
  have := roundTiesToEven_mul N 1 (by decide)
  simpa using this

theorem sameValue_integer (c X : Nat) (hX : X < 2 ^ 53)
    (h : (toDouble c 1).sameValue (JSNumber.finite X 1) = true) : c = X := by
  unfold toDouble at h
  by_cases hbig : 1 * 2 ^ 52 ≤ c
  · rw [if_pos hbig, Nat.div_one] at h
    simp only at h
    have hcpos : 0 < c := lt_of_lt_of_le (by positivity) hbig
    have hlo := floorLog2_pow_le c c hcpos (le_refl _)
    have hhi := lt_floorLog2_pow c c (le_refl _)
    generalize floorLog2 c c = e at *
    have he52 : 52 ≤ e := by
      by_contra hcon
      have : 2 ^ (e + 1) ≤ 2 ^ 52 := Nat.pow_le_pow_right (by norm_num) (by omega)
      omega
    have hM : 2 ^ 52 ≤ roundTiesToEven c (1 * 2 ^ (e - 52)) := by
      apply le_roundTiesToEven _ _ _ (by positivity)
      have : 2 ^ 52 * (1 * 2 ^ (e - 52)) = 2 ^ e := by
        rw [Nat.one_mul, ← pow_add]; congr 1; omega
      rw [this]
      exact hlo
    by_cases hov : 2 ^ 1024 ≤ roundTiesToEven c (1 * 2 ^ (e - 52)) * 2 ^ (e - 52)
    · rw [if_pos hov] at h
      exact Bool.noConfusion h
    · rw [if_neg hov] at h
      simp only [JSNumber.sameValue, Nat.mul_one, beq_iff_eq] at h
      by_cases he : e = 52
      · subst he
        simp only [Nat.sub_self, pow_zero, Nat.mul_one, roundTiesToEven_one] at h
        exact h
      · exfalso
        have h1 : 2 ^ 52 * 2 ^ (e - 52) ≤
            roundTiesToEven c (1 * 2 ^ (e - 52)) * 2 ^ (e - 52) :=
          Nat.mul_le_mul_right _ hM
        have h2 : 2 ^ 52 * 2 ^ (e - 52) = 2 ^ e := by
          rw [← pow_add]; congr 1; omega
        have h3 : 2 ^ 53 ≤ 2 ^ e := Nat.pow_le_pow_right (by norm_num) (by omega)
        omega
  · rw [if_neg hbig] at h
    simp only [JSNumber.sameValue, roundTiesToEven_one, Nat.mul_one, beq_iff_eq] at h
    exact Nat.eq_of_mul_eq_mul_right (by positivity) h

theorem lt_pow_length_decimalDigits (n : Nat) : n < 10 ^ (decimalDigits n).length := by
  induction n using Nat.strong_induction_on with
  | _ n ih =>
    by_cases h : n < 10
    · rw [decimalDigits_lt_ten n h]
      simpa using h
    · rw [decimalDigits_step n (by omega)]
      have := ih (n / 10) (by omega)
      simp only [List.length_append, List.length_singleton, pow_succ]
      omega

theorem pow_length_decimalDigits_le (n : Nat) (h0 : 0 < n) :
    10 ^ ((decimalDigits n).length - 1) ≤ n := by
  induction n using Nat.strong_induction_on with
  | _ n ih =>
    by_cases h : n < 10
    · rw [decimalDigits_lt_ten n h]
      simpa using h0
    · rw [decimalDigits_step n (by omega)]
      have := ih (n / 10) (by omega) (by omega)
      have hpos : 0 < (decimalDigits (n / 10)).length :=
        List.length_pos.mpr (decimalDigits_ne_nil _)
      simp only [List.length_append, List.length_singleton, Nat.add_sub_cancel]
      have e : (decimalDigits (n / 10)).length =
          ((decimalDigits (n / 10)).length - 1) + 1 := by omega
      rw [e, pow_succ]
      omega

theorem decimalDigits_mul_pow (s m : Nat) (hs : 0 < s) :
    decimalDigits (s * 10 ^ m) = decimalDigits s ++ List.replicate m '0' := by
  induction m with
  | zero => simp
  | succ m ih =>
    have hpos : 0 < s * 10 ^ m := by positivity
    have e : s * 10 ^ (m + 1) = 10 * (s * 10 ^ m) + 0 := by rw [pow_succ]; ring
    rw [e, decimalDigits_mul_add _ 0 hpos (by decide), ih, List.replicate_succ',
      digitChar_zero, List.append_assoc]

theorem lt_succ_div_mul (X u : Nat) (hu : 0 < u) : X < (X / u + 1) * u := by
  have h : X / u < X / u + 1 := Nat.lt_succ_self _
  rwa [Nat.div_lt_iff_lt_mul hu] at h

theorem shortestDigits_exact (X D : Nat) (hX : X < 2 ^ 53) (fuel : Nat) :
    (shortestDigits X D fuel).1 * 10 ^ ((shortestDigits X D fuel).2.2 -
        (shortestDigits X D fuel).2.1) = X ∧
      (shortestDigits X D fuel).2.2 = D := by
  induction fuel with
  | zero => simp [shortestDigits]
  | succ fuel ih =>
    unfold shortestDigits
    simp only
    by_cases hk : D - (fuel + 1) = 0
    · rw [if_pos hk]
      exact ih
    rw [if_neg hk]
    generalize D - (fuel + 1) = k at *
    have hu : 0 < 10 ^ (D - k) := by positivity
    have h1 : (toDouble ((X / 10 ^ (D - k) + 1) * 10 ^ (D - k)) 1).sameValue
        (JSNumber.finite X 1) = false := by
      by_contra hcon
      have h := sameValue_integer _ X hX (by simpa using hcon)
      have hlt := lt_succ_div_mul X _ hu
      omega
    rw [h1]
    by_cases h0 : (toDouble (X / 10 ^ (D - k) * 10 ^ (D - k)) 1).sameValue
        (JSNumber.finite X 1) = true
    · have hv := sameValue_integer _ X hX h0
      rw [h0, if_neg (by simp), if_pos rfl]
      exact ⟨hv, rfl⟩
    · have h0f : (toDouble (X / 10 ^ (D - k) * 10 ^ (D - k)) 1).sameValue
          (JSNumber.finite X 1) = false := by simpa using h0
      rw [h0f, if_neg (by simp), if_neg (by simp), if_neg (by simp)]
      exact ih

theorem integerToString_safe (n : Nat) (hn : n < 2 ^ 53) :
    integerToString n = decimalDigits n := by
  unfold integerToString
  by_cases h0 : n = 0
  · subst h0
    rfl
  rw [if_neg h0]
  have hpos : 0 < n := Nat.pos_of_ne_zero h0
  obtain ⟨hv, hD⟩ := shortestDigits_exact n (decimalDigits n).length hn (decimalDigits n).length
  have hlen : (decimalDigits n).length ≤ 21 := by
    have h1 := pow_length_decimalDigits_le n hpos
    by_contra hcon
    have h2 : 10 ^ 21 ≤ 10 ^ ((decimalDigits n).length - 1) :=
      Nat.pow_le_pow_right (by norm_num) (by omega)
    have h3 : (2 : Nat) ^ 53 ≤ 10 ^ 21 := by norm_num
    omega
  simp only
  generalize shortestDigits n (decimalDigits n).length (decimalDigits n).length = res at *
  obtain ⟨s, k, m⟩ := res
  simp only at hv hD ⊢
  subst hD
  rw [if_pos hlen]
  have hs : 0 < s := by
    by_contra hcon
    have : s = 0 := by omega
    rw [this] at hv
    simp at hv
    omega
  rw [← decimalDigits_mul_pow s _ hs, hv]

theorem digitChar_eq_iff (d : Nat) (hd : d < 10) :
    (Nat.digitChar d = '1' ↔ d = 1) ∧ (Nat.digitChar d = '2' ↔ d = 2) ∧
      (Nat.digitChar d = '3' ↔ d = 3) := by
  interval_cases d <;> decide

theorem decimalDigits_last_two (n : Nat) (h : 10 ≤ n) :
    ∃ P, decimalDigits n = P ++ [Nat.digitChar (n / 10 % 10), Nat.digitChar (n % 10)] := by
  rw [decimalDigits_step n h]
  by_cases h2 : n / 10 < 10
  · refine ⟨[], ?_⟩
    rw [decimalDigits_lt_ten _ h2]
    have : n / 10 % 10 = n / 10 := by omega
    rw [this]
    rfl
  · refine ⟨decimalDigits (n / 10 / 10), ?_⟩
    rw [decimalDigits_step (n / 10) (by omega)]
    simp

theorem sliceLast_append_two (P : List Char) (a b : Char) :
    sliceLastOne (P ++ [a, b]) = [b] ∧ sliceLastTwo (P ++ [a, b]) = [a, b] := by
  unfold sliceLastOne sliceLastTwo
  constructor
  · have e : P ++ [a, b] = (P ++ [a]) ++ [b] := by simp
    rw [e, List.length_append, List.length_singleton, Nat.add_sub_cancel,
      List.drop_left]
  · rw [List.length_append]
    simp

theorem ordinalSuffix_of_safe (n : Nat) (hn : n < 2 ^ 53) :
    ordinalSuffix n = decimalDigits n ++
      (if n % 100 = 11 ∨ n % 100 = 12 ∨ n % 100 = 13 then ['t', 'h']
       else if n % 10 = 1 then ['s', 't']
       else if n % 10 = 2 then ['n', 'd']
       else if n % 10 = 3 then ['r', 'd']
       else ['t', 'h']) := by
  unfold ordinalSuffix
  simp only [integerToString_safe n hn]
  congr 1
  by_cases h10 : n < 10
  · rw [decimalDigits_lt_ten n h10]
    obtain ⟨e1, e2, e3⟩ := digitChar_eq_iff n h10
    have hm : n % 100 = n := by omega
    have hm2 : n % 10 = n := by omega
    simp only [sliceLastOne, sliceLastTwo, List.length_singleton, Nat.sub_self, List.drop_zero,
      List.cons.injEq, and_true, e1, e2, e3, hm, hm2]
    have hf : ∀ x y : Char, ¬ ([Nat.digitChar n] = [x, y]) := by
      intro x y hxy
      simp at hxy
    simp only [show (1 : Nat) - 2 = 0 from rfl, List.drop_zero, hf, if_false]
    split_ifs <;> first | rfl | omega
  · obtain ⟨P, hP⟩ := decimalDigits_last_two n (by omega)
    obtain ⟨s1, s2⟩ := sliceLast_append_two P (Nat.digitChar (n / 10 % 10))
      (Nat.digitChar (n % 10))
    obtain ⟨a1, a2, a3⟩ := digitChar_eq_iff (n / 10 % 10) (by omega)
    obtain ⟨b1, b2, b3⟩ := digitChar_eq_iff (n % 10) (by omega)
    rw [hP, s1, s2]
    simp only [List.cons.injEq, and_true, a1, b1, b2, b3]
    split_ifs <;> first | rfl | omega

/-- C15 fails as stated: `10 ^ 21` is a Number, `toString()` renders it as `1e+21`, and the
result is `1e+21st`; `2 ^ 54 + 8` is rendered with the shortest digits that convert back to it,
`18014398509481990`, and gets `th`, although it ends in `92`. -/
theorem ordinalSuffix_large :
    toDouble (10 ^ 21) 1 = JSNumber.finite (10 ^ 21) 1 ∧
    ordinalSuffix (10 ^ 21) = "1e+21st".toList ∧
    ordinalSuffix (10 ^ 21) ≠ decimalDigits (10 ^ 21) ++ "th".toList ∧
    toDouble (2 ^ 54 + 8) 1 = JSNumber.finite (2 ^ 54 + 8) 1 ∧
    ordinalSuffix (2 ^ 54 + 8) = "18014398509481990th".toList ∧
    ordinalSuffix (2 ^ 54 + 8) ≠ decimalDigits (2 ^ 54 + 8) ++ "nd".toList := by
  decide

/-- C15 (amended): for every non-negative integer `n` below `2 ^ 53`, `ordinalSuffix(n)` is
the decimal rendering of `n` followed by `th` when `n mod 100` is 11, 12 or 13, and otherwise
by `st`, `nd` or `rd` when `n mod 10` is 1, 2 or 3, and by `th` for every other last digit. -/
theorem ordinalSuffix_safe (n : Nat) (hn : n < 2 ^ 53) :
    ordinalSuffix n = decimalDigits n ++
      (if n % 100 = 11 ∨ n % 100 = 12 ∨ n % 100 = 13 then "th".toList
       else if n % 10 = 1 then "st".toList
       else if n % 10 = 2 then "nd".toList
       else if n % 10 = 3 then "rd".toList
       else "th".toList) :=
  ordinalSuffix_of_safe n hn

theorem ordinalSuffix_safe_witness :
    ordinalSuffix 1 = "1st".toList ∧ ordinalSuffix 11 = "11th".toList ∧
      ordinalSuffix 22 = "22nd".toList ∧ ordinalSuffix 113 = "113th".toList ∧
      ordinalSuffix 23 = "23rd".toList :=
  ⟨(ordinalSuffix_safe 1 (by decide)).trans (by decide),
    (ordinalSuffix_safe 11 (by decide)).trans (by decide),
    (ordinalSuffix_safe 22 (by decide)).trans (by decide),
    (ordinalSuffix_safe 113 (by decide)).trans (by decide),
    (ordinalSuffix_safe 23 (by decide)).trans (by decide)⟩

end JSHelper
